import Mathlib

/-! go-drushmakeparser: the makefile parser of `parser.go`.

A shallow embedding of `parser.go` (package `drushmakeparser`) and the properties
of its parsing engine.

Modelling conventions.

* A Go `string` is the list of its characters (`Str`).  Every delimiter the code
  searches for (`projects[`, `[`, `]`, newline, carriage return) is ASCII, so
  positions counted in characters cut a string at the same places as the byte
  offsets of the Go code.  Where a length in bytes matters (the token limit of the
  scanner) it is `byteLen`, the length of the UTF-8 encoding.
* `bufio.Scanner` with its default split function `bufio.ScanLines` and its default
  buffer is `scanLines`: the scanner yields the lines of the text one by one and stops
  for good at the first line of `MaxScanTokenSize` bytes or more (the source neither
  calls `Buffer` nor reads `Err`).  `textLines` is the list of all the lines.
* `regexp` is a small backtracking matcher `reMatch` over the token sequences that
  the five expressions of `Package.Parse` consist of.
* Go does not specify the iteration order of `range` over a map.  The two map
  iterations of the program take their order as an explicit parameter:
  `NameRange` for `components` in `componentList`, `PatternRange` for `patterns` in
  `Package.Parse`.
* `ini.Load` and `ioutil.ReadFile` are external: their outcomes are parameters of
  `DrushMakeInfo.Parse`.
-/

namespace DrushMake

/-- A Go string, as the list of its characters. -/
abbrev Str := List Char

/-- The Go `error` values the external collaborators may return. -/
abbrev Error := String

/-! ## Library functions used by the source -/

namespace strings

/-- Go `strings.Index(s, substr)`: the index of the first occurrence of `substr` in `s`,
or `-1` when `substr` does not occur in `s`. -/
def Index : Str → Str → Int
  | [], substr => if substr = [] then 0 else -1
  | c :: cs, substr =>
    if substr.isPrefixOf (c :: cs) then 0
    else
      let r := Index cs substr
      if r < 0 then -1 else r + 1

end strings

/-- Go slice expression `s[lo:hi]`; `none` stands for the run-time panic on bad bounds. -/
def slice (s : Str) (lo hi : Int) : Option Str :=
  if 0 ≤ lo ∧ lo ≤ hi ∧ hi ≤ (s.length : Int) then
    some ((s.take hi.toNat).drop lo.toNat)
  else none

/-- Go `dropCR` of package `bufio`: drop one trailing carriage return. -/
def dropCR (data : Str) : Str :=
  if data.getLast? = some '\r' then data.dropLast else data

/-- The text cut at every newline; a final piece without newline counts when non-empty. -/
def rawLines : Str → List Str
  | [] => []
  | c :: cs =>
    if c = '\n' then [] :: rawLines cs
    else
      match rawLines cs with
      | [] => [[c]]
      | l :: ls => (c :: l) :: ls

/-- Go `bufio.MaxScanTokenSize`, the size limit of the buffer of a `bufio.Scanner`. -/
def MaxScanTokenSize : Nat := 64 * 1024

/-- Go `len(s)`: the length of a string in bytes (UTF-8). -/
def byteLen (s : Str) : Nat :=
  (s.map Char.utf8Size).sum

/-- All the lines of a text, each without its end-of-line marker (a newline, with one
carriage return before it). -/
def textLines (s : Str) : List Str :=
  (rawLines s).map dropCR

/-- The successive values of `scanner.Text()` in a loop `for scanner.Scan()` over a
`bufio.Scanner` on the text (split function `bufio.ScanLines`, default buffer): the
lines, each without its end-of-line marker, up to the first line of `MaxScanTokenSize`
bytes or more (carriage return included), where `Scan` gives up with `ErrTooLong` and
returns false from then on. -/
def scanLines (s : Str) : List Str :=
  ((rawLines s).takeWhile (fun l => decide (byteLen l < MaxScanTokenSize))).map dropCR

/-- No line of the text reaches the token limit of the scanner. -/
def fitsScanner (s : Str) : Prop :=
  ∀ l ∈ rawLines s, byteLen l < MaxScanTokenSize

instance (s : Str) : Decidable (fitsScanner s) := by
  unfold fitsScanner
  infer_instance

/-! ## Regular expressions -/

/-- Perl class `\w` of Go `regexp`: `[0-9A-Za-z_]`. -/
def isWord (c : Char) : Bool :=
  ('0' ≤ c ∧ c ≤ '9') || ('A' ≤ c ∧ c ≤ 'Z') || ('a' ≤ c ∧ c ≤ 'z') || c = '_'

/-- Perl class `\s` of Go `regexp`: `[\t\n\f\r ]`. -/
def isSpace (c : Char) : Bool :=
  c = '\t' || c = '\n' || c = '\x0c' || c = '\r' || c = ' '

/-- Negated class `\S`. -/
def isNonSpace (c : Char) : Bool :=
  !isSpace c

/-- The pieces the expressions of `Package.Parse` are made of. -/
inductive Tok where
  /-- A run of literal characters, e.g. `projects\[`. -/
  | lit (s : Str)
  /-- The capturing group `(\w+)`. -/
  | wordPlus
  /-- The optional blank `\s?`. -/
  | optSpace
  /-- The capturing group `(\S+)`. -/
  | nonSpacePlus
deriving DecidableEq, Repr

/-- All ways a greedy `cls+` can consume a non-empty prefix of the input, longest first:
pairs of the consumed prefix and the remaining input. -/
def plusSplits (cls : Char → Bool) : Str → List (Str × Str)
  | [] => []
  | c :: cs =>
    if cls c then
      (plusSplits cls cs).map (fun wr => (c :: wr.1, wr.2)) ++ [([c], cs)]
    else []

/-- Backtracking match of a token sequence against the whole input (the expressions are
anchored by `^` and `$`).  The result lists the captured groups in order, chosen the way
Go `regexp` prefers them: greedy operators take as much as they can and give back only
when the rest fails. -/
def reMatch : List Tok → Str → Option (List Str)
  | [], s => if s = [] then some [] else none
  | Tok.lit l :: ts, s =>
    if l.isPrefixOf s then reMatch ts (s.drop l.length) else none
  | Tok.wordPlus :: ts, s =>
    (plusSplits isWord s).findSome? (fun wr => (reMatch ts wr.2).map (fun caps => wr.1 :: caps))
  | Tok.optSpace :: ts, s =>
    match s with
    | c :: cs =>
      if isSpace c then (reMatch ts cs).orElse (fun _ => reMatch ts (c :: cs))
      else reMatch ts (c :: cs)
    | [] => reMatch ts []
  | Tok.nonSpacePlus :: ts, s =>
    (plusSplits isNonSpace s).findSome? (fun wr => (reMatch ts wr.2).map (fun caps => wr.1 :: caps))

/-- Go `re.FindStringSubmatch(line)` for a matching line: the whole match followed by
the captured groups. -/
def FindStringSubmatch (toks : List Tok) (line : Str) : Option (List Str) :=
  (reMatch toks line).map (fun caps => line :: caps)

/-! ## The data model -/

/-- Go `type Package struct`; the field `Type` is spelled `Type_`. -/
structure Package where
  Name : Str := []
  Version : Str := []
  Type_ : Str := []
  Revision : Str := []
deriving DecidableEq, Repr

/-- Go `type DrushMakeInfo struct`. -/
structure DrushMakeInfo where
  Packages : List Package := []
deriving DecidableEq, Repr

/-- The keys of the map `patterns` of `Package.Parse`. -/
inductive RowType where
  | BASIC
  | VERSION
  | BRANCH
  | TYPE
  | REVISION
deriving DecidableEq, Repr

/-- The keys of `patterns`, in the order the source lists them. -/
def RowType.all : List RowType :=
  [RowType.BASIC, RowType.VERSION, RowType.BRANCH, RowType.TYPE, RowType.REVISION]

/-- The part `\s?=\s?(\S+)$` shared by the five expressions. -/
def assignTail : List Tok :=
  [Tok.optSpace, Tok.lit "=".toList, Tok.optSpace, Tok.nonSpacePlus]

/-- The literal that follows the captured name in the expression of a row type. -/
def RowType.attr : RowType → Str
  | RowType.BASIC => "]".toList
  | RowType.VERSION => "][version]".toList
  | RowType.BRANCH => "][download][branch]".toList
  | RowType.TYPE => "][download][type]".toList
  | RowType.REVISION => "][download][revision]".toList

/-- The map `patterns` of `Package.Parse`:
`^projects\[(\w+)\]<attribute path>\s?=\s?(\S+)$` for each row type. -/
def patterns (rowType : RowType) : List Tok :=
  Tok.lit "projects[".toList :: Tok.wordPlus :: Tok.lit rowType.attr :: assignTail

/-- One iteration order of `for rowType, expression := range patterns`: the five keys in
some order. -/
def PatternRange : Type :=
  { order : List RowType // order.Perm RowType.all }

/-- The iteration that visits the patterns as the source lists them. -/
def PatternRange.listed : PatternRange :=
  ⟨RowType.all, List.Perm.refl _⟩

/-- One behaviour of `for name := range components`: the keys of the map in some order.
The argument is the list of keys in insertion order. -/
structure NameRange where
  order : List Str → List Str
  perm : ∀ keys, (order keys).Perm keys

/-- The iteration that visits the keys in insertion order. -/
def NameRange.insertion : NameRange :=
  ⟨id, fun _ => List.Perm.refl _⟩

/-- The iteration that visits the keys in reverse insertion order. -/
def NameRange.reversed : NameRange :=
  ⟨List.reverse, fun keys => List.reverse_perm keys⟩

/-! ## The functions of `parser.go` -/

/-- Go `keyMapper` with the bounds check of the slice expression made explicit:
`none` stands for a panic. -/
def keyMapperChecked (key : Str) : Option Str :=
  let match_ := strings.Index key "projects[".toList
  let start := strings.Index key "[".toList
  let end_ := strings.Index key "]".toList
  if match_ = 0 ∧ start > 0 ∧ end_ > 0 then
    slice key (start + 1) end_
  else some []

/-- Go `keyMapper`: the project name of a component block. -/
def keyMapper (key : Str) : Str :=
  (keyMapperChecked key).getD []

/-- The body of the pattern loop of `Package.Parse` for one pattern: when the
expression matches the line and captures the package's name, store the value. -/
def Package.applyPattern (line : Str) (p : Package) (rowType : RowType) : Package :=
  match FindStringSubmatch (patterns rowType) line with
  | none => p
  | some matches_ =>
    if matches_.getD 1 [] ≠ p.Name then p
    else
      match rowType with
      | RowType.BASIC => { p with Version := matches_.getD 2 [] }
      | RowType.VERSION => { p with Version := matches_.getD 2 [] }
      | RowType.BRANCH => { p with Version := matches_.getD 2 [] }
      | RowType.TYPE => { p with Type_ := matches_.getD 2 [] }
      | RowType.REVISION => { p with Revision := matches_.getD 2 [] }

/-- The loop `for rowType, expression := range patterns` on one line, the patterns
tried in the given order. -/
def Package.applyPatterns (order : List RowType) (line : Str) (p : Package) : Package :=
  order.foldl (Package.applyPattern line) p

/-- The loop `for scanner.Scan()` of `Package.Parse`; `rng i` is the order in which the
patterns are tried on the line of index `i`. -/
def Package.scanLoop (rng : Nat → PatternRange) : Nat → Package → List Str → Package
  | _, p, [] => p
  | i, p, line :: rest =>
    Package.scanLoop rng (i + 1) (Package.applyPatterns (rng i).val line p) rest

/-- Go `func (p *Package) Parse(block string) error`: the package after the call (the
returned error is always `nil`). -/
def Package.Parse (rng : Nat → PatternRange) (p : Package) (block : Str) : Package :=
  Package.scanLoop rng 0 { p with Name := keyMapper block } (scanLines block)

/-- Go `findBlock`: the lines that contain `projects[name]`, each followed by a newline. -/
def findBlock (name : Str) (rawBlock : Str) : Str :=
  (scanLines rawBlock).foldl
    (fun componentBlock line =>
      if strings.Index line ("projects[".toList ++ name ++ "]".toList) > -1 then
        componentBlock ++ line ++ "\n".toList
      else componentBlock)
    []

/-- The scanning loop of `componentList`: the keys of the map `components`, in the order
in which they were inserted. -/
def componentKeysLoop : List Str → List Str → List Str
  | [], components => components
  | line :: rest, components =>
    let key := keyMapper line
    if key = [] ∨ key = "drupal".toList then componentKeysLoop rest components
    else if key ∉ components then componentKeysLoop rest (components ++ [key])
    else componentKeysLoop rest components

/-- The keys of `components` when the scanning loop of `componentList` ends. -/
def componentKeys (rawBlock : Str) : List Str :=
  componentKeysLoop (scanLines rawBlock) []

/-- Go `componentList`: the keys of `components`, in the order the map iteration yields. -/
def componentList (names : NameRange) (rawBlock : Str) : List Str :=
  names.order (componentKeys rawBlock)

/-- The loop `for _, name := range componentList` of `DrushMakeInfo.Parse`; `k` counts
the packages parsed so far. -/
def DrushMakeInfo.parseLoop (pats : Nat → Nat → PatternRange) (text : Str) :
    Nat → List Str → List Package → List Package
  | _, [], packages => packages
  | k, name :: rest, packages =>
    DrushMakeInfo.parseLoop pats text (k + 1) rest
      (packages ++ [Package.Parse (pats k) {} (findBlock name text)])

/-- The record of the core, built from the value of the top-level key `core`. -/
def corePackage (coreValue : Str) : Package :=
  { Name := "drupal".toList, Version := coreValue, Type_ := "core".toList }

/-- Go `func (d *DrushMakeInfo) Parse(filePath string) error`: the manifest after the
call and the returned error (`none` for `nil`).  `cfg` is the outcome of `ini.Load`
followed by the read of the key `core`, `file` the outcome of `ioutil.ReadFile`. -/
def DrushMakeInfo.Parse (names : NameRange) (pats : Nat → Nat → PatternRange)
    (d : DrushMakeInfo) (cfg : Except Error Str) (file : Except Error Str) :
    DrushMakeInfo × Option Error :=
  match cfg with
  | Except.error err => (d, some err)
  | Except.ok coreValue =>
    let d1 : DrushMakeInfo := { Packages := d.Packages ++ [corePackage coreValue] }
    match file with
    | Except.error err => (d1, some err)
    | Except.ok b =>
      ({ Packages := DrushMakeInfo.parseLoop pats b 0 (componentList names b) d1.Packages },
        none)

/-! ## Closed forms used in the statements -/

/-- Consume the optional blank `\s?` greedily. -/
def dropOptSpace : Str → Str
  | [] => []
  | c :: cs => if isSpace c then cs else c :: cs

/-- The canonical effect of one line: the patterns tried in the listed order. -/
def Package.applyLine (line : Str) (p : Package) : Package :=
  Package.applyPatterns RowType.all line p

/-- Record folding in canonical form: `Package.Parse` with the patterns tried in the
listed order on every line. -/
def Package.fold (p : Package) (block : Str) : Package :=
  (scanLines block).foldl (fun q line => Package.applyLine line q) { p with Name := keyMapper block }

/-- The line `projects[n]<attribute path> = v` of a row type. -/
def shapeLine (rt : RowType) (n v : Str) : Str :=
  "projects[".toList ++ n ++ rt.attr ++ " = ".toList ++ v

/-- The value a line assigns to the version of the component `name`: the value captured
by the first of the three version shapes (direct assignment, `[version]`,
`[download][branch]`) that matches the line with that name, if any. -/
def versionValue (name : Str) (line : Str) : Option Str :=
  [RowType.BASIC, RowType.VERSION, RowType.BRANCH].findSome? (fun rt =>
    match reMatch (patterns rt) line with
    | some [n, v] => if n = name then some v else none
    | _ => none)

/-- The 11-line makefile `testMakefile` of `parser_test.go`. -/
def testMakefile : Str :=
  ("projects[media] = 2.x-dev\n" ++
   "projects[media_youtube][version] = 1.0-alpha5\n" ++
   "projects[media_youtube][subdir] = media_plugins\n" ++
   "projects[media_flickr][version] = 1.0-alpha1\n" ++
   "projects[media_flickr][subdir] = media_plugins\n" ++
   "projects[rubik] = 4.0-beta7\n" ++
   "projects[rubik][patch][] = \"http://drupal.org/files/rubik-print-css.patch\"\n" ++
   "projects[nodequeue][subdir] = contrib\n" ++
   "projects[nodequeue][version] = 2.0-alpha1\n" ++
   "projects[nodequeue][patch][] = \"http://drupal.org/files/issues/1023606-qid-to-name-6.patch\"\n" ++
   "projects[nodequeue][patch][] = \"http://drupal.org/files/issues/nodequeue_d7_autocomplete-872444-6.patch\"").toList

/-- A list without its repetitions: every element is kept at its first occurrence. -/
def firstOccurrences : List Str → List Str
  | [] => []
  | k :: ks => k :: (firstOccurrences ks).filter (fun x => x ≠ k)

/-- A name that counts as a component: neither empty nor the reserved name `drupal`. -/
def isComponentName (k : Str) : Bool :=
  decide (k ≠ [] ∧ k ≠ "drupal".toList)

/-- The discovered names in the order of their first appearance in the text, as the
specification words it: the names extracted from the lines, without the empty name and
the reserved name `drupal`, each kept where it is first seen. -/
def firstSeenNames (text : Str) : List Str :=
  firstOccurrences
    (((textLines text).map keyMapper).filter isComponentName)

/-- A two-component makefile. -/
def twoProjects : Str :=
  "projects[a] = 1\nprojects[b] = 2".toList

/-- The key `projects[name]` that `findBlock` looks for in a line. -/
def projectKey (name : Str) : Str :=
  "projects[".toList ++ name ++ "]".toList

/-- Block extraction as the specification words it: the lines whose extracted key
prefix equals the name, in their order, each terminated by a newline. -/
def keyBlock (name : Str) (text : Str) : Str :=
  (((textLines text).filter (fun line => keyMapper line = name)).map
    (fun line => line ++ "\n".toList)).flatten

/-- The lines that contain the key `projects[name]` anywhere, in their order, each
terminated by a newline. -/
def containingBlock (name : Str) (text : Str) : Str :=
  (((textLines text).filter (fun line => decide (projectKey name <:+: line))).map
    (fun line => line ++ "\n".toList)).flatten

/-- A makefile with a line that mentions `projects[x]` without starting with it. -/
def strayMention : Str :=
  "foo projects[x]\nprojects[x] = 1".toList

/-- The text mentions `projects[` only at the very start of its lines. -/
def keysLeadLines (text : Str) : Prop :=
  ∀ line ∈ scanLines text, ¬ ("projects[".toList <:+: line.tail)

instance (text : Str) : Decidable (keysLeadLines text) := by
  unfold keysLeadLines
  infer_instance

/-- A makefile whose first line mentions `projects[b]` inside the line of `a`. -/
def nestedMention : Str :=
  "projects[a][projects[b]] = 1\nprojects[b] = 2".toList

/-- The first block of `testBlocks` in `parser_test.go`, expected there to parse to
Name `ns_core` and Type `module`. -/
def nsCoreBlock : Str :=
  ("projects[ns_core][type] = module\n" ++
   "projects[ns_core][download][type] = git\n" ++
   "projects[ns_core][download][branch] = 7.x-2.x").toList

/-- The block of the download metadata scenario. -/
def downloadBlock : Str :=
  ("projects[x][download][type] = git\n" ++
   "projects[x][download][revision] = abc123").toList

/-- Go `func (d *DrushMakeInfo) GetPackageByName(name string) Package`: the body is
`p := Package{}; return p`. -/
def DrushMakeInfo.GetPackageByName (_d : DrushMakeInfo) (_name : Str) : Package :=
  let p : Package := {}
  p

/-- Go `func (d *DrushMakeInfo) GetPackageListByPrefix(prefix string) []Package`: the
body is `p := []Package{}; return p`. -/
def DrushMakeInfo.GetPackageListByPrefix (_d : DrushMakeInfo) (_pre : Str) : List Package :=
  let p : List Package := []
  p

/-- A manifest that holds a record named `embed` after the core record. -/
def embedManifest : DrushMakeInfo :=
  { Packages := [corePackage "7.x".toList,
      { Name := "embed".toList, Version := "1.0".toList }] }

/-- The fourth block of `testBlocks` in `parser_test.go`, expected there to parse to a
package with the two patch URLs in its `Patch` list. -/
def nodequeueBlock : Str :=
  ("projects[nodequeue][subdir] = contrib\n" ++
   "projects[nodequeue][version] = 2.0-alpha1\n" ++
   "projects[nodequeue][patch][] = \"http://drupal.org/files/issues/1023606-qid-to-name-6.patch\"\n" ++
   "projects[nodequeue][patch][] = \"http://drupal.org/files/issues/nodequeue_d7_autocomplete-872444-6.patch\"").toList

/-- The block `nodequeueBlock` without its two `[patch][]` lines. -/
def nodequeueNoPatch : Str :=
  ("projects[nodequeue][subdir] = contrib\n" ++
   "projects[nodequeue][version] = 2.0-alpha1").toList

/-- The line `projects[n]<w1>=<w2>v`: a direct assignment with the texts `w1` and `w2`
immediately before and after the `=`. -/
def assignLine (n w1 w2 v : Str) : Str :=
  "projects[".toList ++ n ++ ']' :: (w1 ++ '=' :: (w2 ++ v))

/-- Zero or one whitespace character, not a line break. -/
def isOptBlank (w : Str) : Bool :=
  decide (w.length ≤ 1) && w.all (fun c => isSpace c && c != '\n')

/-- A line the defensive check of `Package.Parse` discards for a package named `name`:
one of the five expressions matches it and `matches[1]` differs from `name`. -/
def isForeignLine (name : Str) (line : Str) : Bool :=
  RowType.all.any (fun rt =>
    match FindStringSubmatch (patterns rt) line with
    | some matches_ => decide (matches_.getD 1 [] ≠ name)
    | none => false)

/-- A block whose name runs over the end of its first line. -/
def openNameBlock : Str :=
  "projects[a\nprojects[x] = 1\nb] = 2".toList

/-- The block `openNameBlock` without its line `projects[x] = 1`. -/
def openNameBlockKept : Str :=
  "projects[a\nb] = 2".toList

/-- A list of lines with one more line put in at position `k`. -/
def insertedAt (k : Nat) (line : Str) (lines : List Str) : List Str :=
  lines.take k ++ line :: lines.drop k

/-- A one-component makefile. -/
def oneProject : Str :=
  "projects[x] = 1".toList

/-- The makefile `oneProject` after a line of free text that mentions `projects[x]`. -/
def oneProjectMentioned : Str :=
  "foo = projects[x]\nprojects[x] = 1".toList

/-- The makefile `oneProject` after the malformed line `projects[]=`. -/
def oneProjectMalformed : Str :=
  "projects[]=\nprojects[x] = 1".toList

/-- A line of 65536 letters `a`: one byte more than the scanner can hold with the
newline that ends a line. -/
def longLine : Str :=
  List.replicate 65536 'a'

/-- A block with an over-long line between two version lines. -/
def longVersionBlock : Str :=
  "projects[x] = 1".toList ++ '\n' :: (longLine ++ '\n' :: "projects[x] = 2".toList)

/-- A makefile with an over-long line before its only project. -/
def longFirstText : Str :=
  longLine ++ '\n' :: "projects[a] = 1".toList

/-! ## Lemmas -/

theorem findSome_plusSplits {β : Type} (cls : Char → Bool) (s : Str) :
    ∀ (f : Str × Str → Option β), (∀ w c r, cls c = true → f (w, c :: r) = none) →
    (plusSplits cls s).findSome? f =
      if s.takeWhile cls = [] then none else f (s.takeWhile cls, s.dropWhile cls) := by
  induction s with
  | nil => intro f _; simp [plusSplits]
  | cons c cs ih =>
    intro f hf
    by_cases hc : cls c = true
    · have ih2 := ih (fun wr => f (c :: wr.1, wr.2)) (fun w d r hd => hf (c :: w) d r hd)
      simp only [plusSplits, hc, if_true, List.findSome?_append, List.findSome?_map,
        List.takeWhile_cons, List.dropWhile_cons]
      have hcomp : ((f ∘ fun wr : Str × Str => (c :: wr.1, wr.2))) = (fun wr => f (c :: wr.1, wr.2)) := rfl
      rw [hcomp, ih2]
      by_cases ht : cs.takeWhile cls = []
      · have hd : cs.dropWhile cls = cs := by
          cases cs with
          | nil => rfl
          | cons d ds =>
            by_cases hdd : cls d = true
            · simp [List.takeWhile_cons, hdd] at ht
            · simp [List.dropWhile_cons, hdd]
        simp only [ht, hd, if_true, if_false, Option.none_or]
        cases h : f ([c], cs) <;> simp [List.findSome?, h]
      · have hcs : ∃ d ds, cs = d :: ds ∧ cls d = true := by
          cases cs with
          | nil => simp at ht
          | cons d ds =>
            by_cases hdd : cls d = true
            · exact ⟨d, ds, rfl, hdd⟩
            · simp [List.takeWhile_cons, hdd] at ht
        obtain ⟨d, ds, rfl, hdd⟩ := hcs
        simp only [ht, if_false]
        cases hres : f (c :: List.takeWhile cls (d :: ds), List.dropWhile cls (d :: ds)) with
        | none => simp [List.findSome?, hf [c] d ds hdd]
        | some b => simp
    · simp [plusSplits, hc, List.takeWhile_cons]

theorem attr_cons (rt : RowType) : ∃ l, rt.attr = ']' :: l := by
  cases rt <;> exact ⟨_, rfl⟩

theorem reMatch_lit_of_head_ne (a : Char) (l : Str) (ts : List Tok) (c : Char) (r : Str)
    (h : c ≠ a) : reMatch (Tok.lit (a :: l) :: ts) (c :: r) = none := by
  have : (a == c) = false := by
    simp only [beq_eq_false_iff_ne, ne_eq]
    exact fun e => h e.symm
  simp [reMatch, List.isPrefixOf, this]

theorem reMatch_wordPlus_lit (l : Str) (ts : List Tok) (s : Str) :
    reMatch (Tok.wordPlus :: Tok.lit (']' :: l) :: ts) s =
      if s.takeWhile isWord = [] then none
      else (reMatch (Tok.lit (']' :: l) :: ts) (s.dropWhile isWord)).map
        (fun caps => s.takeWhile isWord :: caps) := by
  rw [reMatch]
  apply findSome_plusSplits
  intro w c r hc
  have hne : c ≠ ']' := by
    rintro rfl
    revert hc
    decide
  simp [reMatch_lit_of_head_ne _ l ts c r hne]

theorem reMatch_nonSpacePlus (s : Str) :
    reMatch [Tok.nonSpacePlus] s = if s ≠ [] ∧ s.all isNonSpace = true then some [s] else none := by
  rw [reMatch]
  rw [findSome_plusSplits isNonSpace s _ (by intro w c r _; simp [reMatch])]
  by_cases hall : s.all isNonSpace = true
  · have h1 : s.takeWhile isNonSpace = s := by
      rw [List.takeWhile_eq_self_iff]
      simpa using hall
    have h2 : s.dropWhile isNonSpace = [] := by
      rw [List.dropWhile_eq_nil_iff]
      simpa using hall
    by_cases hs : s = []
    · simp [hs]
    · simp [h1, h2, hs, hall, reMatch]
  · have h2 : s.dropWhile isNonSpace ≠ [] := by
      rw [Ne, List.dropWhile_eq_nil_iff]
      simpa using hall
    simp [hall, reMatch, h2]

theorem reMatch_optSpace_cons (ts : List Tok) (c : Char) (cs : Str) :
    reMatch (Tok.optSpace :: ts) (c :: cs) =
      if isSpace c then (reMatch ts cs).orElse (fun _ => reMatch ts (c :: cs))
      else reMatch ts (c :: cs) := by
  conv_lhs => rw [reMatch]

theorem reMatch_optSpace_nil (ts : List Tok) :
    reMatch (Tok.optSpace :: ts) [] = reMatch ts [] := by
  conv_lhs => rw [reMatch]

theorem reMatch_lit (l : Str) (ts : List Tok) (s : Str) :
    reMatch (Tok.lit l :: ts) s =
      if l.isPrefixOf s then reMatch ts (s.drop l.length) else none := by
  conv_lhs => rw [reMatch]

theorem reMatch_optSpace_lit (a : Char) (ha : isSpace a = false) (l : Str) (ts : List Tok)
    (s : Str) :
    reMatch (Tok.optSpace :: Tok.lit (a :: l) :: ts) s =
      reMatch (Tok.lit (a :: l) :: ts) (dropOptSpace s) := by
  cases s with
  | nil => rw [reMatch_optSpace_nil]; rfl
  | cons c cs =>
    by_cases hc : isSpace c = true
    · have hne : c ≠ a := by
        rintro rfl
        simp [hc] at ha
      rw [reMatch_optSpace_cons]
      simp only [hc, if_true, dropOptSpace]
      rw [reMatch_lit_of_head_ne a l ts c cs hne]
      cases reMatch (Tok.lit (a :: l) :: ts) cs <;> rfl
    · rw [reMatch_optSpace_cons]
      simp only [hc, dropOptSpace]
      rfl

theorem reMatch_optSpace_nonSpacePlus (s : Str) :
    reMatch [Tok.optSpace, Tok.nonSpacePlus] s = reMatch [Tok.nonSpacePlus] (dropOptSpace s) := by
  cases s with
  | nil => rw [reMatch_optSpace_nil]; rfl
  | cons c cs =>
    by_cases hc : isSpace c = true
    · have hnone : reMatch [Tok.nonSpacePlus] (c :: cs) = none := by
        rw [reMatch_nonSpacePlus]
        simp [isNonSpace, hc]
      rw [reMatch_optSpace_cons]
      simp only [hc, if_true, dropOptSpace, hnone]
      cases reMatch [Tok.nonSpacePlus] cs <;> rfl
    · rw [reMatch_optSpace_cons]
      simp only [hc, dropOptSpace]
      rfl

/-- The tail `\s?=\s?(\S+)$` in closed form. -/
theorem reMatch_assignTail (t : Str) :
    reMatch assignTail t =
      if ['='].isPrefixOf (dropOptSpace t) then
        (if dropOptSpace ((dropOptSpace t).drop 1) ≠ [] ∧
            (dropOptSpace ((dropOptSpace t).drop 1)).all isNonSpace = true then
          some [dropOptSpace ((dropOptSpace t).drop 1)]
        else none)
      else none := by
  have hlit : "=".toList = ['='] := rfl
  rw [assignTail, hlit, reMatch_optSpace_lit '=' (by decide), reMatch_lit]
  simp only [List.length_singleton]
  rw [reMatch_optSpace_nonSpacePlus, reMatch_nonSpacePlus]

/-- The expression of a row type in closed form. -/
theorem reMatch_patterns (rt : RowType) (line : Str) :
    reMatch (patterns rt) line =
      if "projects[".toList.isPrefixOf line then
        (if (line.drop 9).takeWhile isWord = [] then none
         else if rt.attr.isPrefixOf ((line.drop 9).dropWhile isWord) then
          (reMatch assignTail (((line.drop 9).dropWhile isWord).drop rt.attr.length)).map
            (fun caps => (line.drop 9).takeWhile isWord :: caps)
         else none)
      else none := by
  obtain ⟨l, hl⟩ := attr_cons rt
  rw [patterns, reMatch_lit]
  have h9 : "projects[".toList.length = 9 := rfl
  rw [h9]
  by_cases hp : "projects[".toList.isPrefixOf line = true
  · rw [if_pos hp, if_pos hp, hl, reMatch_wordPlus_lit]
    by_cases hw : (line.drop 9).takeWhile isWord = []
    · rw [if_pos hw, if_pos hw]
    · rw [if_neg hw, if_neg hw, reMatch_lit]
      by_cases ha : (']' :: l).isPrefixOf ((line.drop 9).dropWhile isWord) = true
      · rw [if_pos ha, if_pos ha]
      · rw [if_neg ha, if_neg ha]; rfl
  · rw [if_neg hp, if_neg hp]

theorem assignTail_head {t : Str} {caps : List Str} (h : reMatch assignTail t = some caps) :
    ∃ c t1, t = c :: t1 ∧ (isSpace c = true ∨ c = '=') := by
  rw [reMatch_assignTail] at h
  cases t with
  | nil => simp [dropOptSpace, List.isPrefixOf] at h
  | cons c cs =>
    refine ⟨c, cs, rfl, ?_⟩
    by_cases hc : isSpace c = true
    · exact Or.inl hc
    · right
      by_contra hne
      have : ('=' == c) = false := by
        simp only [beq_eq_false_iff_ne, ne_eq]
        exact fun e => hne e.symm
      simp [dropOptSpace, hc, List.isPrefixOf, this] at h

theorem attr_clean (rt : RowType) : ∀ c ∈ rt.attr, isSpace c = false ∧ c ≠ '=' := by
  cases rt <;> decide

theorem attr_length_inj (a b : RowType) (h : a.attr.length = b.attr.length) : a = b := by
  cases a <;> cases b <;> first | rfl | (exfalso; revert h; decide)

/-- What a successful match says about the line after the captured name. -/
theorem reMatch_patterns_some {rt : RowType} {line : Str} {caps : List Str}
    (h : reMatch (patterns rt) line = some caps) :
    "projects[".toList.isPrefixOf line = true ∧
    (line.drop 9).takeWhile isWord ≠ [] ∧
    rt.attr.isPrefixOf ((line.drop 9).dropWhile isWord) = true ∧
    ∃ caps1, reMatch assignTail (((line.drop 9).dropWhile isWord).drop rt.attr.length) = some caps1 ∧
      caps = (line.drop 9).takeWhile isWord :: caps1 := by
  rw [reMatch_patterns] at h
  by_cases hp : "projects[".toList.isPrefixOf line = true
  · rw [if_pos hp] at h
    by_cases hw : (line.drop 9).takeWhile isWord = []
    · rw [if_pos hw] at h; cases h
    · rw [if_neg hw] at h
      by_cases ha : rt.attr.isPrefixOf ((line.drop 9).dropWhile isWord) = true
      · rw [if_pos ha] at h
        cases hm : reMatch assignTail (((line.drop 9).dropWhile isWord).drop rt.attr.length) with
        | none => rw [hm] at h; cases h
        | some caps1 =>
          rw [hm] at h
          simp only [Option.map_some', Option.some.injEq] at h
          exact ⟨hp, hw, ha, caps1, rfl, h.symm⟩
      · rw [if_neg ha] at h; cases h
  · rw [if_neg hp] at h; cases h

theorem attr_length_not_lt {a b : RowType} {line : Str} {ca cb : List Str}
    (ha : reMatch (patterns a) line = some ca) (hb : reMatch (patterns b) line = some cb) :
    ¬ a.attr.length < b.attr.length := by
  intro hlt
  obtain ⟨_, _, hpa, caps1, hta, _⟩ := reMatch_patterns_some ha
  obtain ⟨_, _, hpb, _, _, _⟩ := reMatch_patterns_some hb
  obtain ⟨c, t1, ht, hc⟩ := assignTail_head hta
  rw [List.isPrefixOf_iff_prefix] at hpa hpb
  obtain ⟨ta, hra⟩ := hpa
  obtain ⟨tb, hrb⟩ := hpb
  rw [← hra, List.drop_left] at ht
  have h1 : ((line.drop 9).dropWhile isWord)[a.attr.length]? = some c := by
    rw [← hra, ht, List.getElem?_append_right (le_refl _)]
    simp
  have h2 : ((line.drop 9).dropWhile isWord)[a.attr.length]? = b.attr[a.attr.length]? := by
    rw [← hrb, List.getElem?_append_left hlt]
  rw [h2] at h1
  have hmem : c ∈ b.attr := List.getElem?_mem h1
  have hcl := attr_clean b c hmem
  rcases hc with hc | hc
  · rw [hcl.1] at hc; cases hc
  · exact hcl.2 hc

/-- At most one of the five expressions matches a line. -/
theorem reMatch_exclusive {a b : RowType} {line : Str} {ca cb : List Str}
    (ha : reMatch (patterns a) line = some ca) (hb : reMatch (patterns b) line = some cb) :
    a = b := by
  apply attr_length_inj
  have h1 := attr_length_not_lt ha hb
  have h2 := attr_length_not_lt hb ha
  omega

theorem applyPattern_of_none {rt : RowType} {line : Str} (p : Package)
    (h : reMatch (patterns rt) line = none) : Package.applyPattern line p rt = p := by
  simp [Package.applyPattern, FindStringSubmatch, h]

theorem applyPattern_comm (line : Str) (p : Package) (x y : RowType) :
    Package.applyPattern line (Package.applyPattern line p x) y =
      Package.applyPattern line (Package.applyPattern line p y) x := by
  by_cases hxy : x = y
  · rw [hxy]
  · cases hx : reMatch (patterns x) line with
    | none => rw [applyPattern_of_none p hx, applyPattern_of_none _ hx]
    | some cx =>
      cases hy : reMatch (patterns y) line with
      | none => rw [applyPattern_of_none p hy, applyPattern_of_none _ hy]
      | some cy => exact absurd (reMatch_exclusive hx hy) hxy

/-- The order in which the patterns are tried on a line does not matter. -/
theorem applyPatterns_range (order : PatternRange) (line : Str) (p : Package) :
    Package.applyPatterns order.val line p = Package.applyLine line p := by
  unfold Package.applyLine Package.applyPatterns
  exact List.Perm.foldl_eq' order.property (fun x _ y _ z => applyPattern_comm line z x y) p

/-- The scanning loop folds the canonical line effect, whatever orders are drawn. -/
theorem scanLoop_eq (rng : Nat → PatternRange) (i : Nat) (p : Package) (lines : List Str) :
    Package.scanLoop rng i p lines = lines.foldl (fun q line => Package.applyLine line q) p := by
  induction lines generalizing i p with
  | nil => rfl
  | cons line rest ih =>
    rw [Package.scanLoop, ih, applyPatterns_range]
    rfl

/-- When the expression of a row type matches, the line has the effect of that pattern. -/
theorem applyLine_of_match {rt : RowType} {line : Str} {caps : List Str} (p : Package)
    (h : reMatch (patterns rt) line = some caps) :
    Package.applyLine line p = Package.applyPattern line p rt := by
  have hn : ∀ b, b ≠ rt → ∀ q, Package.applyPattern line q b = q := by
    intro b hb q
    cases hm : reMatch (patterns b) line with
    | none => exact applyPattern_of_none q hm
    | some cb => exact absurd (reMatch_exclusive hm h) hb
  unfold Package.applyLine Package.applyPatterns RowType.all
  simp only [List.foldl]
  cases rt <;> simp [hn]

theorem applyLine_of_no_match {line : Str} (p : Package)
    (h : ∀ rt, reMatch (patterns rt) line = none) : Package.applyLine line p = p := by
  unfold Package.applyLine Package.applyPatterns RowType.all
  simp only [List.foldl]
  simp [applyPattern_of_none _ (h _)]

theorem Index_ge (s sub : Str) : -1 ≤ strings.Index s sub := by
  induction s with
  | nil => unfold strings.Index; split <;> omega
  | cons c cs ih =>
    unfold strings.Index
    split
    · omega
    · simp only []
      split <;> omega

theorem Index_eq_zero_iff (s sub : Str) :
    strings.Index s sub = 0 ↔ sub.isPrefixOf s = true := by
  cases s with
  | nil =>
    unfold strings.Index
    cases sub with
    | nil => simp
    | cons a l => simp [List.isPrefixOf]
  | cons c cs =>
    unfold strings.Index
    by_cases hp : sub.isPrefixOf (c :: cs) = true
    · simp [hp]
    · rw [if_neg hp]
      have hge := Index_ge cs sub
      constructor
      · intro h
        exfalso
        by_cases hr : strings.Index cs sub < 0
        · simp only [hr, if_true] at h
          omega
        · simp only [hr, if_false] at h
          omega
      · intro h; exact absurd h hp

theorem Index_single (s : Str) (ch : Char) :
    strings.Index s [ch] =
      if ch ∈ s then ((s.takeWhile (fun c => c != ch)).length : Int) else -1 := by
  induction s with
  | nil => simp [strings.Index]
  | cons c cs ih =>
    unfold strings.Index
    by_cases hc : c = ch
    · subst hc
      simp [List.isPrefixOf, List.takeWhile_cons]
    · have hb : (ch == c) = false := by
        simp only [beq_eq_false_iff_ne, ne_eq]
        exact fun e => hc e.symm
      have hb2 : (c != ch) = true := by simp [hc]
      have hmem : (ch ∈ c :: cs) ↔ ch ∈ cs := by
        simp only [List.mem_cons]
        constructor
        · rintro (h | h)
          · exact absurd h.symm hc
          · exact h
        · exact Or.inr
      simp only [List.isPrefixOf, hb, Bool.false_and, if_false, ih, List.takeWhile_cons, hb2,
        if_true, List.length_cons, hmem, Bool.false_eq_true]
      by_cases hin : ch ∈ cs
      · simp only [hin, if_true]
        have : ¬ ((List.takeWhile (fun c => c != ch) cs).length : Int) < 0 := by omega
        rw [if_neg this]
        push_cast
        ring
      · simp [hin]

theorem take_length_takeWhile (p : Char → Bool) (l : Str) :
    l.take (l.takeWhile p).length = l.takeWhile p :=
  (List.prefix_iff_eq_take.mp ( List.takeWhile_prefix p)).symm

/-- Go `keyMapper` in closed form: the text between the leading `projects[` and the
first `]`. -/
theorem keyMapperChecked_eq (key : Str) :
    keyMapperChecked key =
      some (if "projects[".toList.isPrefixOf key = true ∧ ']' ∈ key then
        (key.drop 9).takeWhile (fun c => c != ']') else []) := by
  have hlit : "projects[".toList = ['p', 'r', 'o', 'j', 'e', 'c', 't', 's', '['] := rfl
  have hl1 : "[".toList = ['['] := rfl
  have hl2 : "]".toList = [']'] := rfl
  unfold keyMapperChecked
  simp only []
  by_cases hp : "projects[".toList.isPrefixOf key = true
  · have h0 : strings.Index key "projects[".toList = 0 := (Index_eq_zero_iff _ _).mpr hp
    obtain ⟨rest, hrest⟩ := List.isPrefixOf_iff_prefix.mp hp
    rw [hlit] at hrest
    have hstart : strings.Index key "[".toList = 8 := by
      rw [hl1, Index_single, ← hrest]
      simp [List.takeWhile_cons]
    by_cases hin : ']' ∈ key
    · have hinr : ']' ∈ rest := by
        rw [← hrest] at hin
        simpa using hin
      have hend : strings.Index key "]".toList
          = ((9 + (rest.takeWhile (fun c => c != ']')).length : Nat) : Int) := by
        rw [hl2, Index_single, if_pos hin, ← hrest]
        simp [List.takeWhile_cons]
        omega
      have hle : (rest.takeWhile (fun c => c != ']')).length ≤ rest.length :=
        List.IsPrefix.length_le ( List.takeWhile_prefix _)
      have hlen : key.length = 9 + rest.length := by rw [← hrest]; simp; omega
      rw [h0, hstart, hend]
      unfold slice
      rw [if_pos (by constructor <;> [rfl; constructor <;> omega])]
      rw [if_pos (by refine ⟨by omega, by omega, ?_⟩; rw [hlen]; push_cast; omega)]
      rw [if_pos ⟨hp, hin⟩]
      congr 1
      have e1 : ((8 : Int) + 1).toNat = 9 := rfl
      rw [e1, Int.toNat_ofNat, ← hrest]
      have h9 : ['p', 'r', 'o', 'j', 'e', 'c', 't', 's', '['] ++ rest
          = ['p', 'r', 'o', 'j', 'e', 'c', 't', 's', '['] ++ rest := rfl
      simp only [List.cons_append, List.nil_append, List.drop_succ_cons, List.drop_zero]
      have : (9 + (List.takeWhile (fun c => c != ']') rest).length)
          = (List.takeWhile (fun c => c != ']') rest).length + 9 := by omega
      rw [this]
      simp only [List.take_succ_cons, List.drop_succ_cons, List.drop_zero]
      exact take_length_takeWhile _ _
    · have hend : strings.Index key "]".toList = -1 := by
        rw [hl2, Index_single, if_neg hin]
      rw [hend]
      simp [hin]
  · have h0 : ¬ strings.Index key "projects[".toList = 0 := fun h =>
      hp ((Index_eq_zero_iff _ _).mp h)
    rw [if_neg (fun h => h0 h.1), if_neg (fun h => hp h.1)]

theorem keyMapper_eq (key : Str) :
    keyMapper key =
      if "projects[".toList.isPrefixOf key = true ∧ ']' ∈ key then
        (key.drop 9).takeWhile (fun c => c != ']') else [] := by
  rw [keyMapper, keyMapperChecked_eq]
  rfl

theorem Parse_eq_fold (rng : Nat → PatternRange) (p : Package) (block : Str) :
    Package.Parse rng p block = Package.fold p block := by
  unfold Package.Parse Package.fold
  exact scanLoop_eq rng 0 _ _

theorem rawLines_single (l : Str) (hl : l ≠ []) (hn : '\n' ∉ l) : rawLines l = [l] := by
  induction l with
  | nil => exact absurd rfl hl
  | cons c cs ih =>
    have hc : c ≠ '\n' := fun e => hn (by simp [e])
    have hcs : '\n' ∉ cs := fun h => hn (List.mem_cons_of_mem _ h)
    rw [rawLines, if_neg hc]
    by_cases hnil : cs = []
    · subst hnil; rfl
    · rw [ih hnil hcs]

theorem rawLines_append_newline (l rest : Str) (hn : '\n' ∉ l) :
    rawLines (l ++ '\n' :: rest) = l :: rawLines rest := by
  induction l with
  | nil => simp [rawLines]
  | cons c cs ih =>
    have hc : c ≠ '\n' := fun e => hn (by simp [e])
    have hcs : '\n' ∉ cs := fun h => hn (List.mem_cons_of_mem _ h)
    rw [List.cons_append, rawLines, if_neg hc, ih hcs]

theorem dropCR_of_getLast {l : Str} (h : l.getLast? ≠ some '\r') : dropCR l = l := by
  rw [dropCR, if_neg h]

theorem takeWhile_append_stop (p : Char → Bool) (n : Str) (c : Char) (rest : Str)
    (hn : ∀ x ∈ n, p x = true) (hc : p c = false) : (n ++ c :: rest).takeWhile p = n := by
  induction n with
  | nil => simp [List.takeWhile_cons, hc]
  | cons a l ih =>
    have ha := hn a (List.mem_cons_self _ _)
    rw [List.cons_append, List.takeWhile_cons, ha]
    simp only [if_true]
    rw [ih (fun x hx => hn x (List.mem_cons_of_mem _ hx))]

theorem dropWhile_append_stop (p : Char → Bool) (n : Str) (c : Char) (rest : Str)
    (hn : ∀ x ∈ n, p x = true) (hc : p c = false) : (n ++ c :: rest).dropWhile p = c :: rest := by
  induction n with
  | nil => simp [List.dropWhile_cons, hc]
  | cons a l ih =>
    have ha := hn a (List.mem_cons_self _ _)
    rw [List.cons_append, List.dropWhile_cons, ha]
    simp only [if_true]
    rw [ih (fun x hx => hn x (List.mem_cons_of_mem _ hx))]

theorem shapeLine_eq (rt : RowType) (n v : Str) :
    ∃ l, rt.attr = ']' :: l ∧
      shapeLine rt n v = "projects[".toList ++ (n ++ ']' :: (l ++ " = ".toList ++ v)) := by
  obtain ⟨l, hl⟩ := attr_cons rt
  refine ⟨l, hl, ?_⟩
  simp [shapeLine, hl, List.append_assoc]

theorem isWord_ne_rbracket {c : Char} (h : isWord c = true) : (c != ']') = true := by
  have : c ≠ ']' := by
    rintro rfl
    revert h
    decide
  simp [this]

/-- The expression of a row type matches its shape line and captures name and value. -/
theorem reMatch_shapeLine (rt : RowType) (n v : Str) (hn : n ≠ [])
    (hnw : ∀ c ∈ n, isWord c = true) (hv : v ≠ []) (hvs : ∀ c ∈ v, isSpace c = false) :
    reMatch (patterns rt) (shapeLine rt n v) = some [n, v] := by
  obtain ⟨l, hl, hline⟩ := shapeLine_eq rt n v
  have hpre : "projects[".toList.isPrefixOf (shapeLine rt n v) = true := by
    rw [hline, List.isPrefixOf_iff_prefix]
    exact List.prefix_append _ _
  have hdrop : (shapeLine rt n v).drop 9 = n ++ ']' :: (l ++ " = ".toList ++ v) := by
    rw [hline]
    exact List.drop_left' rfl
  have htake : ((shapeLine rt n v).drop 9).takeWhile isWord = n := by
    rw [hdrop]
    exact takeWhile_append_stop _ _ _ _ hnw (by decide)
  have hdw : ((shapeLine rt n v).drop 9).dropWhile isWord = rt.attr ++ (" = ".toList ++ v) := by
    rw [hdrop, dropWhile_append_stop _ _ _ _ hnw (by decide), hl]
    simp
  have hall : v.all isNonSpace = true := by
    rw [List.all_eq_true]
    intro c hc
    simp [isNonSpace, hvs c hc]
  rw [reMatch_patterns, if_pos hpre, htake, if_neg hn, hdw]
  have hattr : rt.attr.isPrefixOf (rt.attr ++ (" = ".toList ++ v)) = true := by
    rw [List.isPrefixOf_iff_prefix]
    exact List.prefix_append _ _
  rw [if_pos hattr, List.drop_left, reMatch_assignTail]
  have h1 : dropOptSpace (" = ".toList ++ v) = '=' :: ' ' :: v := rfl
  rw [h1]
  have h2 : ['='].isPrefixOf ('=' :: ' ' :: v) = true := by simp [List.isPrefixOf]
  have h3 : dropOptSpace (List.drop 1 ('=' :: ' ' :: v)) = v := rfl
  rw [if_pos h2, h3, if_pos ⟨hv, hall⟩]
  rfl

theorem not_mem_newline_of_clean {s : Str} (h : ∀ c ∈ s, isSpace c = false) : '\n' ∉ s :=
  fun hm => by have := h _ hm; revert this; decide

theorem shapeLine_no_newline (rt : RowType) (n v : Str)
    (hnw : ∀ c ∈ n, isWord c = true) (hvs : ∀ c ∈ v, isSpace c = false) :
    '\n' ∉ shapeLine rt n v := by
  intro hm
  simp only [shapeLine, List.mem_append] at hm
  rcases hm with (((hm | hm) | hm) | hm) | hm
  · revert hm; decide
  · have := hnw _ hm; revert this; decide
  · have := (attr_clean rt _ hm).1; revert this; decide
  · revert hm; decide
  · exact not_mem_newline_of_clean hvs hm

theorem shapeLine_getLast (rt : RowType) (n v : Str) (hv : v ≠ [])
    (hvs : ∀ c ∈ v, isSpace c = false) : (shapeLine rt n v).getLast? ≠ some '\r' := by
  intro h
  have hm : '\r' ∈ v := by
    rw [shapeLine, List.getLast?_append_of_ne_nil _ hv] at h
    exact List.mem_of_getLast?_eq_some h
  have := hvs _ hm
  revert this
  decide

theorem scanLines_of_fits {s : Str} (h : fitsScanner s) : scanLines s = textLines s := by
  rw [scanLines, textLines, List.takeWhile_eq_self_iff.mpr]
  intro l hl
  exact decide_eq_true (h l hl)

/-- The scanner on a text of one line without end-of-line marker. -/
theorem scanLines_single (l : Str) (hl : l ≠ []) (hn : '\n' ∉ l)
    (hlast : l.getLast? ≠ some '\r') (hfit : byteLen l < MaxScanTokenSize) :
    scanLines l = [l] := by
  rw [scanLines, rawLines_single l hl hn, List.takeWhile_cons, if_pos (decide_eq_true hfit),
    List.takeWhile_nil, List.map_cons, List.map_nil, dropCR_of_getLast hlast]

/-- The scanner yields nothing on a single line that reaches its token limit. -/
theorem scanLines_single_long (l : Str) (hl : l ≠ []) (hn : '\n' ∉ l)
    (hbig : MaxScanTokenSize ≤ byteLen l) : scanLines l = [] := by
  rw [scanLines, rawLines_single l hl hn, List.takeWhile_cons,
    if_neg (by rw [decide_eq_true_eq]; omega)]
  rfl

theorem shapeLine_ne_nil (rt : RowType) (n v : Str) : shapeLine rt n v ≠ [] := by
  intro h
  have := congrArg List.length h
  simp [shapeLine] at this

theorem scanLines_shapeLine (rt : RowType) (n v : Str)
    (hnw : ∀ c ∈ n, isWord c = true) (hv : v ≠ []) (hvs : ∀ c ∈ v, isSpace c = false)
    (hfit : byteLen (shapeLine rt n v) < MaxScanTokenSize) :
    scanLines (shapeLine rt n v) = [shapeLine rt n v] :=
  scanLines_single _ (shapeLine_ne_nil rt n v) (shapeLine_no_newline rt n v hnw hvs)
    (shapeLine_getLast rt n v hv hvs) hfit

theorem keyMapper_shapeLine (rt : RowType) (n v : Str) (hnw : ∀ c ∈ n, isWord c = true) :
    keyMapper (shapeLine rt n v) = n := by
  obtain ⟨l, hl, hline⟩ := shapeLine_eq rt n v
  have hpre : "projects[".toList.isPrefixOf (shapeLine rt n v) = true := by
    rw [hline, List.isPrefixOf_iff_prefix]
    exact List.prefix_append _ _
  have hin : ']' ∈ shapeLine rt n v := by
    rw [hline]
    simp
  have hdrop : (shapeLine rt n v).drop 9 = n ++ ']' :: (l ++ " = ".toList ++ v) := by
    rw [hline]
    exact List.drop_left' rfl
  rw [keyMapper_eq, if_pos ⟨hpre, hin⟩, hdrop]
  exact takeWhile_append_stop _ _ _ _ (fun x hx => isWord_ne_rbracket (hnw x hx)) (by decide)

/-- Folding the single shape line of a row type stores the value in the field of that
row type. -/
theorem fold_shapeLine (rt : RowType) (n v : Str) (hn : n ≠ [])
    (hnw : ∀ c ∈ n, isWord c = true) (hv : v ≠ []) (hvs : ∀ c ∈ v, isSpace c = false)
    (hfit : byteLen (shapeLine rt n v) < MaxScanTokenSize) :
    Package.fold {} (shapeLine rt n v) =
      Package.applyPattern (shapeLine rt n v) { Name := n } rt := by
  rw [Package.fold, scanLines_shapeLine rt n v hnw hv hvs hfit, keyMapper_shapeLine rt n v hnw]
  simp only [List.foldl]
  exact applyLine_of_match _ (reMatch_shapeLine rt n v hn hnw hv hvs)

/-- On a one-line block that reaches the token limit the scanner yields no line:
`Package.Parse` sets the name and nothing else. -/
theorem fold_single_long (l : Str) (hl : l ≠ []) (hn : '\n' ∉ l)
    (hbig : MaxScanTokenSize ≤ byteLen l) :
    Package.fold {} l = { Name := keyMapper l } := by
  rw [Package.fold, scanLines_single_long l hl hn hbig]
  rfl

theorem byteLen_append (a b : Str) : byteLen (a ++ b) = byteLen a + byteLen b := by
  simp [byteLen]

theorem byteLen_cons (c : Char) (s : Str) : byteLen (c :: s) = c.utf8Size + byteLen s := by
  simp [byteLen]

theorem byteLen_replicate (k : Nat) : byteLen (List.replicate k 'a') = k := by
  induction k with
  | zero => rfl
  | succ k ih =>
    have h1 : Char.utf8Size 'a' = 1 := by decide
    rw [List.replicate_succ, byteLen_cons, ih, h1]
    omega

theorem byteLen_dropCR_le (l : Str) : byteLen (dropCR l) ≤ byteLen l := by
  rw [dropCR]
  split
  · have h := List.dropLast_append_getLast? (l := l) '\r' (by assumption)
    have h2 : byteLen l = byteLen (l.dropLast ++ ['\r']) := by rw [h]
    rw [h2, byteLen_append]
    omega
  · exact le_refl _

theorem keyMapper_of_key (n rest : Str) (hn : ']' ∉ n) :
    keyMapper ("projects[".toList ++ n ++ ']' :: rest) = n := by
  have hpre : "projects[".toList.isPrefixOf ("projects[".toList ++ n ++ ']' :: rest) = true := by
    rw [List.isPrefixOf_iff_prefix, List.append_assoc]
    exact List.prefix_append _ _
  have hin : ']' ∈ "projects[".toList ++ n ++ ']' :: rest := by simp
  have hdrop : ("projects[".toList ++ n ++ ']' :: rest).drop 9 = n ++ ']' :: rest := by
    rw [List.append_assoc]
    exact List.drop_left' rfl
  rw [keyMapper_eq, if_pos ⟨hpre, hin⟩, hdrop]
  apply takeWhile_append_stop
  · intro x hx
    have : x ≠ ']' := fun e => hn (e ▸ hx)
    simp [this]
  · decide

theorem takeWhile_append_of_stop (q : Char → Bool) (a b : Str)
    (h : ∃ x ∈ a, q x = false) : (a ++ b).takeWhile q = a.takeWhile q := by
  induction a with
  | nil =>
    obtain ⟨x, hx, _⟩ := h
    cases hx
  | cons c cs ih =>
    rw [List.cons_append, List.takeWhile_cons, List.takeWhile_cons]
    by_cases hc : q c = true
    · simp only [hc, if_true]
      congr 1
      apply ih
      obtain ⟨x, hx, hqx⟩ := h
      rcases List.mem_cons.mp hx with rfl | hx
      · rw [hc] at hqx; cases hqx
      · exact ⟨x, hx, hqx⟩
    · simp [hc]

/-- A first part that holds a `]` decides the name of the whole text. -/
theorem keyMapper_append (l rest : Str) (h : ']' ∈ l) : keyMapper (l ++ rest) = keyMapper l := by
  rw [keyMapper_eq, keyMapper_eq]
  by_cases hp : "projects[".toList.isPrefixOf l = true
  · obtain ⟨tl, htl⟩ := List.isPrefixOf_iff_prefix.mp hp
    have hp2 : "projects[".toList.isPrefixOf (l ++ rest) = true := by
      rw [List.isPrefixOf_iff_prefix, ← htl, List.append_assoc]
      exact List.prefix_append _ _
    have hin2 : ']' ∈ tl := by
      rw [← htl, List.mem_append] at h
      rcases h with h | h
      · exact absurd h (by decide)
      · exact h
    have hd1 : l.drop 9 = tl := by
      rw [← htl]
      exact List.drop_left' rfl
    have hd2 : (l ++ rest).drop 9 = tl ++ rest := by
      rw [← htl, List.append_assoc]
      exact List.drop_left' rfl
    rw [if_pos ⟨hp2, List.mem_append_left _ h⟩, if_pos ⟨hp, h⟩, hd1, hd2]
    exact takeWhile_append_of_stop _ _ _ ⟨']', hin2, by decide⟩
  · have hp2 : ¬ "projects[".toList.isPrefixOf (l ++ rest) = true := by
      intro h2
      rw [List.isPrefixOf_iff_prefix] at h2
      rcases List.prefix_or_prefix_of_prefix h2 ( List.prefix_append l rest) with h3 | h3
      · exact hp (List.isPrefixOf_iff_prefix.mpr h3)
      · have : ']' ∈ "projects[".toList := h3.subset h
        revert this
        decide
    rw [if_neg (fun hh => hp2 hh.1), if_neg (fun hh => hp hh.1)]

theorem longLine_big : MaxScanTokenSize ≤ byteLen longLine := by
  rw [longLine, byteLen_replicate]
  decide

theorem longLine_clean : ∀ c ∈ longLine, isSpace c = false := by
  intro c hc
  rw [List.eq_of_mem_replicate hc]
  decide

theorem longLine_no_newline : '\n' ∉ longLine :=
  not_mem_newline_of_clean longLine_clean

theorem longLine_dropCR : dropCR longLine = longLine := by
  apply dropCR_of_getLast
  intro h
  have := longLine_clean _ (List.mem_of_getLast?_eq_some h)
  revert this
  decide

theorem replicate_not_key (k : Nat) :
    "projects[".toList.isPrefixOf (List.replicate k 'a') = false := by
  cases k with
  | zero => rfl
  | succ k => rfl

theorem reMatch_longLine (rt : RowType) : reMatch (patterns rt) longLine = none := by
  rw [reMatch_patterns, if_neg (by rw [longLine, replicate_not_key]; exact Bool.false_ne_true)]

theorem keyMapper_longLine : keyMapper longLine = [] := by
  rw [keyMapper_eq, if_neg (fun h => by
    rw [longLine, replicate_not_key] at h
    exact Bool.false_ne_true h.1)]

/-- The scanner yields nothing when the first line reaches its token limit. -/
theorem scanLines_long_first (rest : Str) : scanLines (longLine ++ '\n' :: rest) = [] := by
  rw [scanLines, rawLines_append_newline _ _ longLine_no_newline, List.takeWhile_cons,
    if_neg (by rw [decide_eq_true_eq]; have := longLine_big; omega)]
  rfl

theorem textLines_long_first (rest : Str) :
    textLines (longLine ++ '\n' :: rest) = longLine :: textLines rest := by
  rw [textLines, rawLines_append_newline _ _ longLine_no_newline, List.map_cons,
    longLine_dropCR]
  rfl

theorem parseLoop_eq (pats : Nat → Nat → PatternRange) (text : Str) (k : Nat)
    (names : List Str) (acc : List Package) :
    DrushMakeInfo.parseLoop pats text k names acc =
      acc ++ names.map (fun n => Package.fold {} (findBlock n text)) := by
  induction names generalizing k acc with
  | nil => simp [DrushMakeInfo.parseLoop]
  | cons n rest ih =>
    rw [DrushMakeInfo.parseLoop, ih, Parse_eq_fold]
    simp

/-- A successful run of `DrushMakeInfo.Parse`: the core record, then one folded record
per listed component. -/
theorem Parse_ok (names : NameRange) (pats : Nat → Nat → PatternRange) (d : DrushMakeInfo)
    (c t : Str) :
    DrushMakeInfo.Parse names pats d (Except.ok c) (Except.ok t) =
      ({ Packages := d.Packages ++ corePackage c ::
          (componentList names t).map (fun n => Package.fold {} (findBlock n t)) }, none) := by
  simp [DrushMakeInfo.Parse, parseLoop_eq]

theorem componentList_singleton (names : NameRange) (t : Str) (k : Str)
    (h : componentKeys t = [k]) : componentList names t = [k] := by
  have hp : (componentList names t).Perm (componentKeys t) := names.perm (componentKeys t)
  rw [h] at hp
  exact List.perm_singleton.mp hp

/-- C1: on an empty manifest `DrushMakeInfo.Parse` succeeds for every core value and
file text, and the first record of the package list is the core record
`drupal` / core value / `core`; for core value `7.x` and the text
`projects[views] = 3.1` the list is exactly the core record followed by
`views` / `3.1`. -/
theorem Parse_core_first :
    (∀ (names : NameRange) (pats : Nat → Nat → PatternRange) (c t : Str),
      ∃ rest, DrushMakeInfo.Parse names pats {} (Except.ok c) (Except.ok t) =
        ({ Packages := { Name := "drupal".toList, Version := c, Type_ := "core".toList,
                         Revision := [] } :: rest }, none)) ∧
    (∀ (names : NameRange) (pats : Nat → Nat → PatternRange),
      DrushMakeInfo.Parse names pats {} (Except.ok "7.x".toList)
          (Except.ok "projects[views] = 3.1".toList) =
        ({ Packages := [
            { Name := "drupal".toList, Version := "7.x".toList, Type_ := "core".toList,
              Revision := [] },
            { Name := "views".toList, Version := "3.1".toList, Type_ := [],
              Revision := [] }] }, none)) := by
  constructor
  · intro names pats c t
    exact ⟨_, Parse_ok names pats {} c t⟩
  · intro names pats
    rw [Parse_ok, componentList_singleton names _ "views".toList (by decide)]
    decide

theorem applyPattern_shape (rt : RowType) (n v : Str) (hn : n ≠ [])
    (hnw : ∀ c ∈ n, isWord c = true) (hv : v ≠ []) (hvs : ∀ c ∈ v, isSpace c = false) :
    Package.applyPattern (shapeLine rt n v) { Name := n } rt =
      match rt with
      | RowType.BASIC => { Name := n, Version := v }
      | RowType.VERSION => { Name := n, Version := v }
      | RowType.BRANCH => { Name := n, Version := v }
      | RowType.TYPE => { Name := n, Type_ := v }
      | RowType.REVISION => { Name := n, Revision := v } := by
  unfold Package.applyPattern FindStringSubmatch
  rw [reMatch_shapeLine rt n v hn hnw hv hvs]
  cases rt <;> simp

theorem shapeLine_long (rt : RowType) (n v : Str) (hv : MaxScanTokenSize ≤ byteLen v) :
    MaxScanTokenSize ≤ byteLen (shapeLine rt n v) := by
  rw [shapeLine, byteLen_append]
  omega

/-- On a shape line that reaches the token limit `Package.Parse` finds the name and
stores nothing. -/
theorem fold_shapeLine_long (rt : RowType) (n v : Str) (hnw : ∀ c ∈ n, isWord c = true)
    (hvs : ∀ c ∈ v, isSpace c = false) (hbig : MaxScanTokenSize ≤ byteLen v) :
    Package.fold {} (shapeLine rt n v) = { Name := n } := by
  rw [fold_single_long _ (shapeLine_ne_nil rt n v) (shapeLine_no_newline rt n v hnw hvs)
    (shapeLine_long rt n v hbig), keyMapper_shapeLine rt n v hnw]

/-- C2, as stated, fails: for the name `x` and a value of 65536 letters `a` (non-empty,
without whitespace) the scanner of `Package.Parse` gives up on the line
`projects[x] = aaa...`, and the record keeps an empty Version. -/
theorem Parse_version_shapes_counterexample :
    longLine.all isNonSpace = true ∧
    Package.Parse (fun _ => PatternRange.listed) {} ("projects[x] = ".toList ++ longLine) =
      { Name := "x".toList, Version := [], Type_ := [], Revision := [] } ∧
    (Package.Parse (fun _ => PatternRange.listed) {}
        ("projects[x] = ".toList ++ longLine)).Version ≠ longLine := by
  have e : "projects[x] = ".toList ++ longLine
      = shapeLine RowType.BASIC "x".toList longLine := rfl
  have hfold := fold_shapeLine_long RowType.BASIC "x".toList longLine
    (by decide) longLine_clean longLine_big
  refine ⟨?_, ?_, ?_⟩
  · rw [List.all_eq_true]
    intro c hc
    simp [isNonSpace, longLine_clean c hc]
  · rw [e, Parse_eq_fold, hfold]
  · rw [e, Parse_eq_fold, hfold]
    intro h
    have := congrArg List.length h
    rw [longLine, List.length_replicate] at this
    exact absurd this (by decide)

/-- C2, amended: for a non-empty name `n` of word characters and a non-empty value `v`
without whitespace, `Package.Parse` on an empty package and the one-line block
`projects[n] = v`, `projects[n][version] = v` or `projects[n][download][branch] = v`,
the line being shorter than 65536 bytes, yields Name `n`, Version `v`, and empty Type
and Revision. -/
theorem Parse_version_shapes (rng : Nat → PatternRange) (n v : Str) (hn : n ≠ [])
    (hnw : ∀ c ∈ n, isWord c = true) (hv : v ≠ []) (hvs : ∀ c ∈ v, isSpace c = false) :
    (byteLen ("projects[".toList ++ n ++ "] = ".toList ++ v) < MaxScanTokenSize →
      Package.Parse rng {} ("projects[".toList ++ n ++ "] = ".toList ++ v) =
        { Name := n, Version := v, Type_ := [], Revision := [] }) ∧
    (byteLen ("projects[".toList ++ n ++ "][version] = ".toList ++ v) < MaxScanTokenSize →
      Package.Parse rng {} ("projects[".toList ++ n ++ "][version] = ".toList ++ v) =
        { Name := n, Version := v, Type_ := [], Revision := [] }) ∧
    (byteLen ("projects[".toList ++ n ++ "][download][branch] = ".toList ++ v)
        < MaxScanTokenSize →
      Package.Parse rng {} ("projects[".toList ++ n ++ "][download][branch] = ".toList ++ v) =
        { Name := n, Version := v, Type_ := [], Revision := [] }) := by
  have key : ∀ rt, byteLen (shapeLine rt n v) < MaxScanTokenSize →
      Package.Parse rng {} (shapeLine rt n v) =
        Package.applyPattern (shapeLine rt n v) { Name := n } rt := fun rt hfit => by
    rw [Parse_eq_fold, fold_shapeLine rt n v hn hnw hv hvs hfit]
  have e1 : "projects[".toList ++ n ++ "] = ".toList ++ v = shapeLine RowType.BASIC n v := by
    simp [shapeLine, RowType.attr]
  have e2 : "projects[".toList ++ n ++ "][version] = ".toList ++ v
      = shapeLine RowType.VERSION n v := by
    simp [shapeLine, RowType.attr]
  have e3 : "projects[".toList ++ n ++ "][download][branch] = ".toList ++ v
      = shapeLine RowType.BRANCH n v := by
    simp [shapeLine, RowType.attr]
  rw [e1, e2, e3]
  refine ⟨?_, ?_, ?_⟩
  · intro hfit
    rw [key _ hfit]
    exact applyPattern_shape RowType.BASIC n v hn hnw hv hvs
  · intro hfit
    rw [key _ hfit]
    exact applyPattern_shape RowType.VERSION n v hn hnw hv hvs
  · intro hfit
    rw [key _ hfit]
    exact applyPattern_shape RowType.BRANCH n v hn hnw hv hvs

/-- Witness of C2 (amended) at the name `views` and the value `3.1`. -/
theorem Parse_version_shapes_witness :
    Package.Parse (fun _ => PatternRange.listed) {} "projects[views] = 3.1".toList =
        { Name := "views".toList, Version := "3.1".toList, Type_ := [], Revision := [] } ∧
    Package.Parse (fun _ => PatternRange.listed) {} "projects[views][version] = 3.1".toList =
        { Name := "views".toList, Version := "3.1".toList, Type_ := [], Revision := [] } ∧
    Package.Parse (fun _ => PatternRange.listed) {}
        "projects[views][download][branch] = 3.1".toList =
        { Name := "views".toList, Version := "3.1".toList, Type_ := [], Revision := [] } :=
  ⟨(Parse_version_shapes (fun _ => PatternRange.listed) "views".toList "3.1".toList
      (by decide) (by decide) (by decide) (by decide)).1 (by decide),
    (Parse_version_shapes (fun _ => PatternRange.listed) "views".toList "3.1".toList
      (by decide) (by decide) (by decide) (by decide)).2.1 (by decide),
    (Parse_version_shapes (fun _ => PatternRange.listed) "views".toList "3.1".toList
      (by decide) (by decide) (by decide) (by decide)).2.2 (by decide)⟩

theorem assignTail_caps {t : Str} {caps : List Str} (h : reMatch assignTail t = some caps) :
    ∃ v, caps = [v] := by
  rw [reMatch_assignTail] at h
  split at h
  · split at h
    · exact ⟨_, (Option.some.inj h).symm⟩
    · cases h
  · cases h

/-- A successful match captures exactly the name and the value. -/
theorem reMatch_patterns_caps {rt : RowType} {line : Str} {caps : List Str}
    (h : reMatch (patterns rt) line = some caps) : ∃ n v, caps = [n, v] := by
  obtain ⟨_, _, _, caps1, h1, hc⟩ := reMatch_patterns_some h
  obtain ⟨v, hv⟩ := assignTail_caps h1
  exact ⟨_, v, by rw [hc, hv]⟩

theorem reMatch_none_of_ne {a b : RowType} {line : Str} {ca : List Str}
    (ha : reMatch (patterns a) line = some ca) (hne : b ≠ a) :
    reMatch (patterns b) line = none := by
  cases hb : reMatch (patterns b) line with
  | none => rfl
  | some cb => exact absurd (reMatch_exclusive hb ha) hne

theorem applyPattern_Name (line : Str) (p : Package) (rt : RowType) :
    (Package.applyPattern line p rt).Name = p.Name := by
  unfold Package.applyPattern
  split
  · rfl
  · split
    · rfl
    · cases rt <;> rfl

theorem applyLine_Name (line : Str) (p : Package) : (Package.applyLine line p).Name = p.Name := by
  unfold Package.applyLine Package.applyPatterns RowType.all
  simp only [List.foldl, applyPattern_Name]

theorem foldl_applyLine_Name (lines : List Str) (p : Package) :
    (lines.foldl (fun q line => Package.applyLine line q) p).Name = p.Name := by
  induction lines generalizing p with
  | nil => rfl
  | cons l rest ih => rw [List.foldl, ih, applyLine_Name]

theorem fold_Name (p : Package) (block : Str) : (Package.fold p block).Name = keyMapper block := by
  rw [Package.fold, foldl_applyLine_Name]

/-- The effect of one line on the version. -/
theorem applyLine_Version (line : Str) (p : Package) :
    (Package.applyLine line p).Version = (versionValue p.Name line).getD p.Version := by
  by_cases hex : ∃ rt caps, reMatch (patterns rt) line = some caps
  · obtain ⟨rt, caps, h⟩ := hex
    obtain ⟨n, v, rfl⟩ := reMatch_patterns_caps h
    rw [applyLine_of_match p h]
    have hB := fun hne => reMatch_none_of_ne (b := RowType.BASIC) h hne
    have hV := fun hne => reMatch_none_of_ne (b := RowType.VERSION) h hne
    have hR := fun hne => reMatch_none_of_ne (b := RowType.BRANCH) h hne
    by_cases hname : n = p.Name
    · cases rt <;>
        simp [Package.applyPattern, FindStringSubmatch, versionValue, h, hname, hB, hV, hR]
    · cases rt <;>
        simp [Package.applyPattern, FindStringSubmatch, versionValue, h, hname, hB, hV, hR]
  · have hnone : ∀ rt, reMatch (patterns rt) line = none := by
      intro rt
      cases hm : reMatch (patterns rt) line with
      | none => rfl
      | some caps => exact absurd ⟨rt, caps, hm⟩ hex
    rw [applyLine_of_no_match p hnone]
    simp [versionValue, hnone]

theorem getLast?_cons_getD (v : Str) (xs : List Str) (d : Str) :
    ((v :: xs).getLast?).getD d = (xs.getLast?).getD v := by
  cases xs with
  | nil => rfl
  | cons a l =>
    rw [List.getLast?_cons_cons, List.getLast?_eq_getLast _ (List.cons_ne_nil a l)]
    rfl

theorem foldl_applyLine_Version (name : Str) (lines : List Str) (p : Package)
    (hp : p.Name = name) :
    (lines.foldl (fun q line => Package.applyLine line q) p).Version =
      ((lines.filterMap (versionValue name)).getLast?).getD p.Version := by
  induction lines generalizing p with
  | nil => rfl
  | cons l rest ih =>
    rw [List.foldl, ih _ (by rw [applyLine_Name, hp]), applyLine_Version, hp]
    cases hv : versionValue name l with
    | none => simp [List.filterMap_cons, hv]
    | some v => simp [List.filterMap_cons, hv, getLast?_cons_getD]

/-- C3, as stated, fails: in the block `projects[x] = 1`, a line of 65536 letters,
`projects[x] = 2` the scanner gives up at the second line, so the Version stays `1`
while the last version line of the block carries `2`. -/
theorem Parse_version_counterexample :
    (Package.Parse (fun _ => PatternRange.listed) {} longVersionBlock).Version = "1".toList ∧
    (((textLines longVersionBlock).filterMap
        (versionValue (keyMapper longVersionBlock))).getLast?).getD [] = "2".toList := by
  have hk : keyMapper longVersionBlock = "x".toList := by
    rw [longVersionBlock, keyMapper_append _ _ (by decide)]
    decide
  have hraw : rawLines longVersionBlock =
      ["projects[x] = 1".toList, longLine, "projects[x] = 2".toList] := by
    rw [longVersionBlock, rawLines_append_newline _ _ (by decide),
      rawLines_append_newline _ _ longLine_no_newline,
      rawLines_single _ (by decide) (by decide)]
  have hscan : scanLines longVersionBlock = ["projects[x] = 1".toList] := by
    rw [scanLines, hraw, List.takeWhile_cons, if_pos (by decide), List.takeWhile_cons,
      if_neg (by rw [decide_eq_true_eq]; have := longLine_big; omega)]
    decide
  have htext : textLines longVersionBlock =
      ["projects[x] = 1".toList, longLine, "projects[x] = 2".toList] := by
    have hA : dropCR "projects[x] = 1".toList = "projects[x] = 1".toList := by decide
    have hB : dropCR "projects[x] = 2".toList = "projects[x] = 2".toList := by decide
    rw [textLines, hraw, List.map_cons, List.map_cons, List.map_cons, longLine_dropCR, hA, hB,
      List.map_nil]
  have hv : versionValue "x".toList longLine = none := by
    simp [versionValue, reMatch_longLine]
  constructor
  · rw [Parse_eq_fold, Package.fold, hscan, hk]
    decide
  · rw [htext, hk, List.filterMap_cons, List.filterMap_cons, hv]
    decide

/-- C3, amended (last seen wins): after `Package.Parse` on an empty package the
Version is the value carried by the last line, among the lines the scanner reads, that
has one of the three version shapes for the block's component name, and is empty when
there is no such line; for a block without a line of 65536 bytes or more these are all
the lines of the block; the block `projects[x][version]=1.0`,
`projects[x][version]=2.0` yields Version `2.0`. -/
theorem Parse_version_last_wins :
    (∀ (rng : Nat → PatternRange) (block : Str),
      (Package.Parse rng {} block).Version =
        (((scanLines block).filterMap (versionValue (keyMapper block))).getLast?).getD []) ∧
    (∀ (rng : Nat → PatternRange) (block : Str), fitsScanner block →
      (Package.Parse rng {} block).Version =
        (((textLines block).filterMap (versionValue (keyMapper block))).getLast?).getD []) ∧
    (∀ (rng : Nat → PatternRange),
      (Package.Parse rng {}
        "projects[x][version]=1.0\nprojects[x][version]=2.0".toList).Version = "2.0".toList) := by
  refine ⟨?_, ?_, ?_⟩
  · intro rng block
    rw [Parse_eq_fold, Package.fold, foldl_applyLine_Version (keyMapper block) _ _ rfl]
  · intro rng block hfit
    rw [Parse_eq_fold, Package.fold, foldl_applyLine_Version (keyMapper block) _ _ rfl,
      scanLines_of_fits hfit]
  · intro rng
    rw [Parse_eq_fold]
    decide

/-- Witness of C3 (amended): the block `projects[x] = 1`, `projects[x][version] = 3`. -/
theorem Parse_version_last_wins_witness :
    fitsScanner "projects[x] = 1\nprojects[x][version] = 3".toList ∧
    (Package.Parse (fun _ => PatternRange.listed) {}
        "projects[x] = 1\nprojects[x][version] = 3".toList).Version =
      (((textLines "projects[x] = 1\nprojects[x][version] = 3".toList).filterMap
        (versionValue (keyMapper "projects[x] = 1\nprojects[x][version] = 3".toList))).getLast?).getD
        [] :=
  ⟨by decide,
    Parse_version_last_wins.2.1 (fun _ => PatternRange.listed)
      "projects[x] = 1\nprojects[x][version] = 3".toList (by decide)⟩

theorem componentKeysLoop_nodup (lines : List Str) (acc : List Str) (h : acc.Nodup) :
    (componentKeysLoop lines acc).Nodup := by
  induction lines generalizing acc with
  | nil => exact h
  | cons l rest ih =>
    rw [componentKeysLoop]
    split
    · exact ih acc h
    · split
      · apply ih
        rw [List.nodup_append]
        refine ⟨h, List.nodup_singleton _, ?_⟩
        intro a ha hb
        rw [List.mem_singleton] at hb
        subst hb
        contradiction
      · exact ih acc h

theorem mem_componentKeysLoop (lines : List Str) (acc : List Str) (k : Str) :
    k ∈ componentKeysLoop lines acc ↔
      k ∈ acc ∨ (k ≠ [] ∧ k ≠ "drupal".toList ∧ ∃ l ∈ lines, keyMapper l = k) := by
  induction lines generalizing acc with
  | nil => simp [componentKeysLoop]
  | cons l rest ih =>
    rw [componentKeysLoop]
    by_cases hskip : keyMapper l = [] ∨ keyMapper l = "drupal".toList
    · rw [if_pos hskip, ih]
      constructor
      · rintro (h | ⟨h1, h2, l1, hl1, hk⟩)
        · exact Or.inl h
        · exact Or.inr ⟨h1, h2, l1, List.mem_cons_of_mem _ hl1, hk⟩
      · rintro (h | ⟨h1, h2, l1, hl1, hk⟩)
        · exact Or.inl h
        · rcases List.mem_cons.mp hl1 with rfl | hl1
          · exfalso
            rcases hskip with hs | hs
            · exact h1 (hk ▸ hs)
            · exact h2 (hk ▸ hs)
          · exact Or.inr ⟨h1, h2, l1, hl1, hk⟩
    · rw [if_neg hskip]
      have hne1 : keyMapper l ≠ [] := fun e => hskip (Or.inl e)
      have hne2 : keyMapper l ≠ "drupal".toList := fun e => hskip (Or.inr e)
      by_cases hmem : keyMapper l ∈ acc
      · rw [if_neg (not_not.mpr hmem), ih]
        constructor
        · rintro (h | ⟨h1, h2, l1, hl1, hk⟩)
          · exact Or.inl h
          · exact Or.inr ⟨h1, h2, l1, List.mem_cons_of_mem _ hl1, hk⟩
        · rintro (h | ⟨h1, h2, l1, hl1, hk⟩)
          · exact Or.inl h
          · rcases List.mem_cons.mp hl1 with rfl | hl1
            · exact Or.inl (hk ▸ hmem)
            · exact Or.inr ⟨h1, h2, l1, hl1, hk⟩
      · rw [if_pos hmem, ih]
        constructor
        · rintro (h | ⟨h1, h2, l1, hl1, hk⟩)
          · rcases List.mem_append.mp h with h | h
            · exact Or.inl h
            · rw [List.mem_singleton] at h
              exact Or.inr ⟨h ▸ hne1, h ▸ hne2, l, List.mem_cons_self _ _, h.symm⟩
          · exact Or.inr ⟨h1, h2, l1, List.mem_cons_of_mem _ hl1, hk⟩
        · rintro (h | ⟨h1, h2, l1, hl1, hk⟩)
          · exact Or.inl (List.mem_append_left _ h)
          · rcases List.mem_cons.mp hl1 with rfl | hl1
            · exact Or.inl (List.mem_append_right _ (by rw [List.mem_singleton]; exact hk.symm))
            · exact Or.inr ⟨h1, h2, l1, hl1, hk⟩

theorem componentKeys_nodup (text : Str) : (componentKeys text).Nodup :=
  componentKeysLoop_nodup _ _ List.nodup_nil

theorem mem_componentKeys (text : Str) (k : Str) :
    k ∈ componentKeys text ↔
      (k ≠ [] ∧ k ≠ "drupal".toList ∧ ∃ l ∈ scanLines text, keyMapper l = k) := by
  rw [componentKeys, mem_componentKeysLoop]
  simp

theorem componentList_perm (names : NameRange) (text : Str) :
    (componentList names text).Perm (componentKeys text) :=
  names.perm _

theorem componentList_nodup (names : NameRange) (text : Str) :
    (componentList names text).Nodup :=
  (componentList_perm names text).nodup_iff.mpr (componentKeys_nodup text)

theorem mem_componentList (names : NameRange) (text : Str) (k : Str) :
    k ∈ componentList names text ↔
      (k ≠ [] ∧ k ≠ "drupal".toList ∧ ∃ l ∈ scanLines text, keyMapper l = k) := by
  rw [(componentList_perm names text).mem_iff, mem_componentKeys]

set_option maxRecDepth 100000 in
theorem componentKeys_testMakefile :
    componentKeys testMakefile =
      ["media".toList, "media_youtube".toList, "media_flickr".toList, "rubik".toList,
       "nodequeue".toList] := by
  decide

theorem componentKeys_longFirst : componentKeys longFirstText = [] := by
  rw [componentKeys, longFirstText, scanLines_long_first]
  rfl

theorem componentList_longFirst (names : NameRange) : componentList names longFirstText = [] := by
  have h := componentList_perm names longFirstText
  rw [componentKeys_longFirst] at h
  exact List.Perm.eq_nil h

/-- C4, as stated, fails: in a text whose first line has 65536 letters the scanner
gives up at once, so `componentList` is empty although the line `projects[a] = 1`
yields the name `a`. -/
theorem componentList_counterexample :
    componentList NameRange.insertion longFirstText = [] ∧
    "projects[a] = 1".toList ∈ textLines longFirstText ∧
    keyMapper "projects[a] = 1".toList = "a".toList ∧
    "a".toList ≠ [] ∧ "a".toList ≠ "drupal".toList ∧
    "a".toList ∉ componentList NameRange.insertion longFirstText := by
  refine ⟨componentList_longFirst _, ?_, by decide, by decide, by decide, ?_⟩
  · rw [longFirstText, textLines_long_first]
    exact List.mem_cons_of_mem _ (by decide)
  · rw [componentList_longFirst]
    exact List.not_mem_nil _

/-- C4, amended: `componentList` returns a duplicate-free list whose elements are
exactly the names `keyMapper` extracts from the lines the scanner reads, other than the
empty name and `drupal`; for a text without a line of 65536 bytes or more these are all
the lines of the text; on the 11-line `testMakefile` it yields, up to order, media,
media_youtube, media_flickr, rubik, nodequeue. -/
theorem componentList_dedup :
    (∀ (names : NameRange) (text : Str),
      (componentList names text).Nodup ∧
      ∀ n, n ∈ componentList names text ↔
        (n ≠ [] ∧ n ≠ "drupal".toList ∧ ∃ line ∈ scanLines text, keyMapper line = n)) ∧
    (∀ (names : NameRange) (text : Str), fitsScanner text →
      ∀ n, n ∈ componentList names text ↔
        (n ≠ [] ∧ n ≠ "drupal".toList ∧ ∃ line ∈ textLines text, keyMapper line = n)) ∧
    (∀ (names : NameRange),
      (componentList names testMakefile).Perm
        ["media".toList, "media_youtube".toList, "media_flickr".toList, "rubik".toList,
         "nodequeue".toList]) := by
  refine ⟨?_, ?_, ?_⟩
  · intro names text
    exact ⟨componentList_nodup names text, mem_componentList names text⟩
  · intro names text hfit n
    rw [mem_componentList, scanLines_of_fits hfit]
  · intro names
    have h := componentList_perm names testMakefile
    rw [componentKeys_testMakefile] at h
    exact h

/-- Witness of C4 (amended): the text `projects[a] = 1`, `projects[b] = 2` and the
name `a`. -/
theorem componentList_dedup_witness :
    fitsScanner twoProjects ∧
    ("a".toList ∈ componentList NameRange.insertion twoProjects ↔
      ("a".toList ≠ [] ∧ "a".toList ≠ "drupal".toList ∧
        ∃ line ∈ textLines twoProjects, keyMapper line = "a".toList)) :=
  ⟨by decide, componentList_dedup.2.1 NameRange.insertion twoProjects (by decide) "a".toList⟩

theorem componentKeysLoop_eq (lines : List Str) (acc : List Str) :
    componentKeysLoop lines acc =
      acc ++ (firstOccurrences
        ((lines.map keyMapper).filter isComponentName)).filter
          (fun x => x ∉ acc) := by
  induction lines generalizing acc with
  | nil => simp [componentKeysLoop, firstOccurrences]
  | cons l rest ih =>
    rw [componentKeysLoop]
    by_cases hskip : keyMapper l = [] ∨ keyMapper l = "drupal".toList
    · rw [if_pos hskip, ih]
      have hn : ¬ (keyMapper l ≠ [] ∧ keyMapper l ≠ "drupal".toList) := by
        rintro ⟨h1, h2⟩
        rcases hskip with h | h
        · exact h1 h
        · exact h2 h
      rw [List.map_cons, List.filter_cons_of_neg (by
        rw [isComponentName]
        exact fun h => hn (of_decide_eq_true h))]
    · rw [if_neg hskip]
      have hv : keyMapper l ≠ [] ∧ keyMapper l ≠ "drupal".toList :=
        ⟨fun e => hskip (Or.inl e), fun e => hskip (Or.inr e)⟩
      have hmap : ((l :: rest).map keyMapper).filter isComponentName
          = keyMapper l ::
            ((rest.map keyMapper).filter isComponentName) := by
        rw [List.map_cons, List.filter_cons_of_pos (by
          rw [isComponentName]
          exact decide_eq_true hv)]
      rw [hmap, firstOccurrences]
      by_cases hmem : keyMapper l ∈ acc
      · rw [if_neg (not_not.mpr hmem), ih]
        congr 1
        rw [List.filter_cons]
        simp only [hmem, not_true_eq_false, decide_False, Bool.false_eq_true, if_false,
          List.filter_filter]
        apply List.filter_congr
        intro x _
        by_cases hx : x ∈ acc
        · simp [hx]
        · have : x ≠ keyMapper l := fun e => hx (e ▸ hmem)
          simp [hx, this]
      · rw [if_pos hmem, ih]
        rw [List.filter_cons]
        simp only [hmem, not_false_eq_true, decide_True, if_true, List.filter_filter,
          List.append_assoc, List.singleton_append]
        congr 2
        apply List.filter_congr
        intro x _
        by_cases hx : x ∈ acc
        · simp [hx]
        · by_cases hxk : x = keyMapper l
          · simp [hxk]
          · simp [hx, hxk]

theorem componentKeys_eq_firstSeen (text : Str) (hfit : fitsScanner text) :
    componentKeys text = firstSeenNames text := by
  rw [componentKeys, componentKeysLoop_eq, firstSeenNames, scanLines_of_fits hfit]
  simp

/-- C5, as stated, fails: with the map iterated in reverse insertion order the names
of `projects[a] = 1`, `projects[b] = 2` come out as b, a while a is seen first, and the
records of the manifest follow in that order. -/
theorem componentList_order_counterexample :
    componentList NameRange.reversed twoProjects = ["b".toList, "a".toList] ∧
    firstSeenNames twoProjects = ["a".toList, "b".toList] ∧
    componentList NameRange.reversed twoProjects ≠ firstSeenNames twoProjects ∧
    (DrushMakeInfo.Parse NameRange.reversed (fun _ _ => PatternRange.listed) {}
        (Except.ok "7.x".toList) (Except.ok twoProjects)).1.Packages.map Package.Name =
      ["drupal".toList, "b".toList, "a".toList] := by
  decide

/-- C5, amended: for a text without a line of 65536 bytes or more, `componentList`
lists the discovered names in the order of the map iteration, which is some permutation
of their order of first appearance (and that order itself when the map is iterated in
insertion order); for every text the records `DrushMakeInfo.Parse` appends after the
core record are those of the names of `componentList`, in the order of that list. -/
theorem componentList_order :
    (∀ (names : NameRange) (text : Str), fitsScanner text →
      (componentList names text).Perm (firstSeenNames text)) ∧
    (∀ (text : Str), fitsScanner text →
      componentList NameRange.insertion text = firstSeenNames text) ∧
    (∀ (names : NameRange) (pats : Nat → Nat → PatternRange) (rng : Nat → PatternRange)
        (c text : Str),
      (DrushMakeInfo.Parse names pats {} (Except.ok c) (Except.ok text)).1.Packages =
        corePackage c ::
          (componentList names text).map (fun n => Package.Parse rng {} (findBlock n text))) := by
  refine ⟨?_, ?_, ?_⟩
  · intro names text hfit
    rw [← componentKeys_eq_firstSeen text hfit]
    exact componentList_perm names text
  · intro text hfit
    rw [← componentKeys_eq_firstSeen text hfit]
    rfl
  · intro names pats rng c text
    rw [Parse_ok]
    simp [Parse_eq_fold]

/-- Witness of C5 (amended): the text `projects[a] = 1`, `projects[b] = 2`. -/
theorem componentList_order_witness :
    fitsScanner twoProjects ∧
    (componentList NameRange.reversed twoProjects).Perm (firstSeenNames twoProjects) ∧
    componentList NameRange.insertion twoProjects = firstSeenNames twoProjects :=
  ⟨by decide,
    componentList_order.1 NameRange.reversed twoProjects (by decide),
    componentList_order.2.1 twoProjects (by decide)⟩

/-- Go `strings.Index` finds a substring exactly when there is one. -/
theorem Index_gt_iff (s sub : Str) : strings.Index s sub > -1 ↔ sub <:+: s := by
  induction s with
  | nil =>
    unfold strings.Index
    by_cases h : sub = []
    · simp [h]
    · simp [h]
  | cons c cs ih =>
    unfold strings.Index
    by_cases hp : sub.isPrefixOf (c :: cs) = true
    · rw [if_pos hp]
      constructor
      · intro _
        exact (List.isPrefixOf_iff_prefix.mp hp).isInfix
      · intro _
        decide
    · rw [if_neg hp, List.infix_cons_iff]
      have hge := Index_ge cs sub
      have hnp : ¬ sub <+: c :: cs := fun h => hp (List.isPrefixOf_iff_prefix.mpr h)
      constructor
      · intro h
        right
        apply ih.mp
        by_cases hr : strings.Index cs sub < 0
        · simp only [hr, if_true] at h
          omega
        · omega
      · rintro (h | h)
        · exact absurd h hnp
        · have := ih.mpr h
          have hr : ¬ strings.Index cs sub < 0 := by omega
          simp only [hr, if_false]
          omega

theorem findBlock_foldl (name : Str) (lines : List Str) (acc : Str) :
    lines.foldl
      (fun componentBlock line =>
        if strings.Index line ("projects[".toList ++ name ++ "]".toList) > -1 then
          componentBlock ++ line ++ "\n".toList
        else componentBlock) acc =
    acc ++ ((lines.filter (fun line => decide (projectKey name <:+: line))).map
      (fun line => line ++ "\n".toList)).flatten := by
  induction lines generalizing acc with
  | nil => simp
  | cons l rest ih =>
    rw [List.foldl, ih]
    by_cases h : projectKey name <:+: l
    · have hi : strings.Index l ("projects[".toList ++ name ++ "]".toList) > -1 :=
        (Index_gt_iff _ _).mpr h
      rw [if_pos hi,
        List.filter_cons_of_pos (p := fun line => decide (projectKey name <:+: line))
          (decide_eq_true h)]
      simp [List.append_assoc]
    · have hi : ¬ strings.Index l ("projects[".toList ++ name ++ "]".toList) > -1 :=
        fun hh => h ((Index_gt_iff _ _).mp hh)
      rw [if_neg hi,
        List.filter_cons_of_neg (p := fun line => decide (projectKey name <:+: line))
          (by simpa using h)]

/-- Go `findBlock` collects the lines that contain the key, among those the scanner
reads. -/
theorem findBlock_scan (name text : Str) :
    findBlock name text =
      (((scanLines text).filter (fun line => decide (projectKey name <:+: line))).map
        (fun line => line ++ "\n".toList)).flatten := by
  rw [findBlock, findBlock_foldl]
  rfl

/-- Without over-long lines `findBlock` collects the lines of the text that contain the
key. -/
theorem findBlock_eq (name text : Str) (hfit : fitsScanner text) :
    findBlock name text = containingBlock name text := by
  rw [findBlock_scan, containingBlock, scanLines_of_fits hfit]

/-- A line with a non-empty extracted name starts with the key of that name, and the
name holds no closing bracket. -/
theorem keyMapper_spec {line n : Str} (h : keyMapper line = n) (hn : n ≠ []) :
    ∃ rest, line = "projects[".toList ++ n ++ ']' :: rest ∧ ']' ∉ n := by
  rw [keyMapper_eq] at h
  by_cases hc : "projects[".toList.isPrefixOf line = true ∧ ']' ∈ line
  · rw [if_pos hc] at h
    obtain ⟨hp, hin⟩ := hc
    obtain ⟨tl, htl⟩ := List.isPrefixOf_iff_prefix.mp hp
    have hdrop : line.drop 9 = tl := by
      rw [← htl]
      exact List.drop_left' rfl
    rw [hdrop] at h
    have hin2 : ']' ∈ tl := by
      rw [← htl, List.mem_append] at hin
      rcases hin with hin | hin
      · exact absurd hin (by decide)
      · exact hin
    have hnot : ']' ∉ n := by
      intro hm
      rw [← h] at hm
      have := List.mem_takeWhile_imp hm
      simp at this
    have hdw : tl.dropWhile (fun c => c != ']') ≠ [] := by
      rw [Ne, List.dropWhile_eq_nil_iff]
      intro hall
      have := hall _ hin2
      simp at this
    obtain ⟨d, ds, hds⟩ := List.exists_cons_of_ne_nil hdw
    have hd : d = ']' := by
      have h1 := List.head_dropWhile_not (fun c => c != ']') tl hdw
      simp only [hds, List.head_cons] at h1
      simpa using h1
    subst hd
    refine ⟨ds, ?_, hnot⟩
    rw [← htl, List.append_assoc]
    congr 1
    rw [← h, ← hds, List.takeWhile_append_dropWhile]
  · rw [if_neg hc] at h
    exact absurd h.symm hn

/-- C7, as stated, fails: for the name `x`, `findBlock` also returns the line
`foo projects[x]`, whose extracted key prefix is empty. -/
theorem findBlock_counterexample :
    findBlock "x".toList strayMention = "foo projects[x]\nprojects[x] = 1\n".toList ∧
    keyBlock "x".toList strayMention = "projects[x] = 1\n".toList ∧
    findBlock "x".toList strayMention ≠ keyBlock "x".toList strayMention := by
  decide

/-- C7, amended: for a text without a line of 65536 bytes or more,
`findBlock(name, text)` consists of exactly those lines of the text that contain
`projects[name]` somewhere, in their original relative order, each terminated by a
newline, and of no other line; every line whose extracted key prefix is a non-empty
name is among the lines of that name. -/
theorem findBlock_lines :
    (∀ (name text : Str), fitsScanner text →
      findBlock name text = containingBlock name text) ∧
    (∀ (name line : Str), name ≠ [] → keyMapper line = name → projectKey name <:+: line) := by
  constructor
  · exact findBlock_eq
  · intro name line hne hk
    obtain ⟨rest, hl, _⟩ := keyMapper_spec hk hne
    refine ⟨[], rest, ?_⟩
    rw [hl, projectKey]
    simp

/-- Witness of C7 (amended): the text `foo projects[x]`, `projects[x] = 1`, and the
line `projects[x] = 1`, which has the key prefix `x` and contains `projects[x]`. -/
theorem findBlock_lines_witness :
    fitsScanner strayMention ∧
    findBlock "x".toList strayMention = containingBlock "x".toList strayMention ∧
    "x".toList ≠ [] ∧ keyMapper "projects[x] = 1".toList = "x".toList ∧
    projectKey "x".toList <:+: "projects[x] = 1".toList :=
  ⟨by decide, findBlock_lines.1 "x".toList strayMention (by decide), by decide, by decide,
    findBlock_lines.2 "x".toList "projects[x] = 1".toList (by decide) (by decide)⟩

/-- When keys only lead lines, a line that contains a key starts with it. -/
theorem key_leads {name line : Str} (hlead : ¬ ("projects[".toList <:+: line.tail))
    (h : projectKey name <:+: line) : ∃ suf, line = "projects[".toList ++ name ++ ']' :: suf := by
  obtain ⟨pre, suf, hl⟩ := h
  cases pre with
  | nil =>
    refine ⟨suf, ?_⟩
    rw [← hl, projectKey]
    simp
  | cons a pre1 =>
    exfalso
    apply hlead
    refine ⟨pre1, name ++ "]".toList ++ suf, ?_⟩
    rw [← hl, projectKey]
    simp

/-- When keys only lead lines, the block of a discovered name carries that name. -/
theorem keyMapper_findBlock {text n : Str} (hlead : keysLeadLines text)
    (hn : n ∈ componentKeys text) : keyMapper (findBlock n text) = n := by
  obtain ⟨hne, _, l0, hl0, hk⟩ := (mem_componentKeys text n).mp hn
  obtain ⟨rest0, hline0, hclean⟩ := keyMapper_spec hk hne
  have hin0 : projectKey n <:+: l0 := by
    refine ⟨[], rest0, ?_⟩
    rw [hline0, projectKey]
    simp
  have hmem : l0 ∈ (scanLines text).filter (fun line => decide (projectKey n <:+: line)) := by
    rw [List.mem_filter]
    exact ⟨hl0, decide_eq_true hin0⟩
  rw [findBlock_scan]
  cases hF : (scanLines text).filter (fun line => decide (projectKey n <:+: line)) with
  | nil => rw [hF] at hmem; cases hmem
  | cons f1 F1 =>
    have hf1 : f1 ∈ (scanLines text).filter (fun line => decide (projectKey n <:+: line)) := by
      rw [hF]
      exact List.mem_cons_self _ _
    rw [List.mem_filter] at hf1
    obtain ⟨suf, hsuf⟩ := key_leads (hlead f1 hf1.1) (of_decide_eq_true hf1.2)
    rw [List.map_cons, List.flatten_cons, hsuf]
    have : "projects[".toList ++ n ++ ']' :: suf ++ "\n".toList ++
        (List.map (fun line => line ++ "\n".toList) F1).flatten =
        "projects[".toList ++ n ++ ']' :: (suf ++ "\n".toList ++
          (List.map (fun line => line ++ "\n".toList) F1).flatten) := by
      simp [List.append_assoc]
    rw [this]
    exact keyMapper_of_key n _ hclean

theorem map_Name_fold {text : Str} (hlead : keysLeadLines text) (ns : List Str)
    (hns : ∀ n ∈ ns, n ∈ componentKeys text) :
    (ns.map (fun n => Package.fold {} (findBlock n text))).map Package.Name = ns := by
  induction ns with
  | nil => rfl
  | cons n rest ih =>
    rw [List.map_cons, List.map_cons, fold_Name, keyMapper_findBlock hlead (hns n (List.mem_cons_self _ _)),
      ih (fun m hm => hns m (List.mem_cons_of_mem _ hm))]

/-- C6, as stated, fails: in `projects[a][projects[b]] = 1`, `projects[b] = 2` the block
of `b` starts with the line of `a`, so the records of `a` and of `b` both carry the
name `a`. -/
theorem Parse_names_counterexample :
    (DrushMakeInfo.Parse NameRange.insertion (fun _ _ => PatternRange.listed) {}
        (Except.ok "7.x".toList) (Except.ok nestedMention)).1.Packages.map Package.Name =
      ["drupal".toList, "a".toList, "a".toList] ∧
    ¬ ((DrushMakeInfo.Parse NameRange.insertion (fun _ _ => PatternRange.listed) {}
        (Except.ok "7.x".toList) (Except.ok nestedMention)).1.Packages.map Package.Name).Nodup := by
  decide

/-- C6, amended: for a text that mentions `projects[` only at the very start of its
lines, no two records of the package list produced by `DrushMakeInfo.Parse` on an empty
manifest share a Name: the names of the records are `drupal` followed by the
discovered component names, one record per name. -/
theorem Parse_names_unique (names : NameRange) (pats : Nat → Nat → PatternRange)
    (c text : Str) (hlead : keysLeadLines text) :
    ((DrushMakeInfo.Parse names pats {} (Except.ok c) (Except.ok text)).1.Packages.map
        Package.Name).Nodup ∧
    (DrushMakeInfo.Parse names pats {} (Except.ok c) (Except.ok text)).1.Packages.map
        Package.Name = "drupal".toList :: componentList names text := by
  have hnames : (DrushMakeInfo.Parse names pats {} (Except.ok c) (Except.ok text)).1.Packages.map
      Package.Name = "drupal".toList :: componentList names text := by
    rw [Parse_ok]
    show List.map Package.Name ([] ++ corePackage c :: _) = _
    rw [List.nil_append, List.map_cons,
      map_Name_fold hlead _ (fun n hn => (componentList_perm names text).mem_iff.mp hn)]
    rfl
  refine ⟨?_, hnames⟩
  rw [hnames, List.nodup_cons]
  refine ⟨?_, componentList_nodup names text⟩
  intro hm
  exact ((mem_componentList names text _).mp hm).2.1 rfl

/-- Witness of C6 (amended) at the text `projects[a] = 1`, `projects[b] = 2`. -/
theorem Parse_names_unique_witness :
    keysLeadLines twoProjects ∧
    ((DrushMakeInfo.Parse NameRange.insertion (fun _ _ => PatternRange.listed) {}
        (Except.ok "7.x".toList) (Except.ok twoProjects)).1.Packages.map Package.Name).Nodup ∧
    (DrushMakeInfo.Parse NameRange.insertion (fun _ _ => PatternRange.listed) {}
        (Except.ok "7.x".toList) (Except.ok twoProjects)).1.Packages.map Package.Name =
      "drupal".toList :: componentList NameRange.insertion twoProjects :=
  ⟨by decide, Parse_names_unique NameRange.insertion (fun _ _ => PatternRange.listed)
    "7.x".toList twoProjects (by decide)⟩

set_option maxRecDepth 100000 in
/-- C8 on the code: the test block of `ns_core` parses to Name `ns_core` but to Type
`git`, not `module`: no expression matches the line `projects[ns_core][type] = module`,
and the `[download][type]` line is stored in Type.  The line alone leaves Type empty. -/
theorem Parse_declared_type_diverges :
    (∀ (rng : Nat → PatternRange),
      (Package.Parse rng {} nsCoreBlock).Name = "ns_core".toList ∧
      (Package.Parse rng {} nsCoreBlock).Type_ = "git".toList ∧
      (Package.Parse rng {} nsCoreBlock).Type_ ≠ "module".toList) ∧
    (∀ (rng : Nat → PatternRange),
      (Package.Parse rng {} "projects[ns_core][type] = module".toList).Type_ = []) ∧
    (∀ (rt : RowType), reMatch (patterns rt) "projects[ns_core][type] = module".toList = none) := by
  refine ⟨?_, ?_, ?_⟩
  · intro rng
    rw [Parse_eq_fold]
    decide
  · intro rng
    rw [Parse_eq_fold]
    decide
  · intro rt
    cases rt <;> decide

theorem applyPattern_Version_frame (line : Str) (p : Package) (rt : RowType)
    (hrt : rt = RowType.TYPE ∨ rt = RowType.REVISION) :
    (Package.applyPattern line p rt).Version = p.Version := by
  unfold Package.applyPattern
  split
  · rfl
  · split
    · rfl
    · rcases hrt with rfl | rfl <;> rfl

set_option maxRecDepth 100000 in
/-- C9: the block `projects[x][download][type] = git`,
`projects[x][download][revision] = abc123` parses to name `x`, revision `abc123` and an
empty version, the download type `git` being kept in the field `Type`; on every line
that has the `[download][type]` or the `[download][revision]` shape the pattern loop
leaves Version as it is, and on a line `projects[n][download][revision] = v` for the
package's name `n` it sets Revision to `v`. -/
theorem Parse_download_metadata :
    (∀ (rng : Nat → PatternRange),
      Package.Parse rng {} downloadBlock =
        { Name := "x".toList, Version := [], Type_ := "git".toList,
          Revision := "abc123".toList }) ∧
    (∀ (order : PatternRange) (line : Str) (p : Package),
      ((reMatch (patterns RowType.TYPE) line).isSome = true ∨
        (reMatch (patterns RowType.REVISION) line).isSome = true) →
      (Package.applyPatterns order.val line p).Version = p.Version) ∧
    (∀ (order : PatternRange) (n v : Str) (p : Package),
      n ≠ [] → (∀ c ∈ n, isWord c = true) → v ≠ [] → (∀ c ∈ v, isSpace c = false) →
      p.Name = n →
      Package.applyPatterns order.val
          ("projects[".toList ++ n ++ "][download][revision] = ".toList ++ v) p =
        { p with Revision := v }) := by
  refine ⟨?_, ?_, ?_⟩
  · intro rng
    rw [Parse_eq_fold]
    decide
  · intro order line p h
    rw [applyPatterns_range]
    rcases h with h | h
    · obtain ⟨caps, hc⟩ := Option.isSome_iff_exists.mp h
      rw [applyLine_of_match p hc]
      exact applyPattern_Version_frame line p _ (Or.inl rfl)
    · obtain ⟨caps, hc⟩ := Option.isSome_iff_exists.mp h
      rw [applyLine_of_match p hc]
      exact applyPattern_Version_frame line p _ (Or.inr rfl)
  · intro order n v p hn hnw hv hvs hp
    have e : "projects[".toList ++ n ++ "][download][revision] = ".toList ++ v
        = shapeLine RowType.REVISION n v := by
      simp [shapeLine, RowType.attr]
    have hm := reMatch_shapeLine RowType.REVISION n v hn hnw hv hvs
    rw [e, applyPatterns_range, applyLine_of_match p hm]
    unfold Package.applyPattern FindStringSubmatch
    rw [hm]
    simp [hp]

/-- Witness of C9: a `[download][revision]` line met by a package named `x` that
already has a version. -/
theorem Parse_download_metadata_witness :
    (reMatch (patterns RowType.REVISION)
        "projects[x][download][revision] = abc123".toList).isSome = true ∧
    (Package.applyPatterns PatternRange.listed.val
        "projects[x][download][revision] = abc123".toList
        { Name := "x".toList, Version := "1.0".toList }).Version = "1.0".toList ∧
    Package.applyPatterns PatternRange.listed.val
        ("projects[".toList ++ "x".toList ++ "][download][revision] = ".toList ++
          "abc123".toList)
        { Name := "x".toList, Version := "1.0".toList } =
      { Name := "x".toList, Version := "1.0".toList, Revision := "abc123".toList } :=
  ⟨by decide,
    Parse_download_metadata.2.1 PatternRange.listed _ _ (Or.inr (by decide)),
    Parse_download_metadata.2.2 PatternRange.listed "x".toList "abc123".toList
      { Name := "x".toList, Version := "1.0".toList }
      (by decide) (by decide) (by decide) (by decide) rfl⟩

/-- C10 on the code: the block `projects[x][download][type] = git` has no line of the
shape `projects[n][type] = v`, yet `Package.Parse` on an empty package returns Type
`git`: the `[download][type]` line is stored in Type. -/
theorem Parse_kind_not_empty :
    ∀ (rng : Nat → PatternRange),
      (Package.Parse rng {} "projects[x][download][type] = git".toList).Type_ = "git".toList ∧
      (Package.Parse rng {} "projects[x][download][type] = git".toList).Type_ ≠ [] := by
  intro rng
  rw [Parse_eq_fold]
  decide

/-- C14 on the code: `GetPackageByName` returns the empty package for every manifest and
name; for a manifest that holds a record named `embed` the result is not that record
and does not carry the requested name. -/
theorem GetPackageByName_empty :
    (∀ (d : DrushMakeInfo) (name : Str), d.GetPackageByName name = {}) ∧
    ({ Name := "embed".toList, Version := "1.0".toList } : Package) ∈ embedManifest.Packages ∧
    embedManifest.GetPackageByName "embed".toList ≠
      { Name := "embed".toList, Version := "1.0".toList } ∧
    (embedManifest.GetPackageByName "embed".toList).Name ≠ "embed".toList := by
  refine ⟨fun _ _ => rfl, ?_, ?_, ?_⟩ <;> decide

/-- C15 on the code: `GetPackageListByPrefix` returns the empty list for every manifest
and prefix; for a manifest whose record `drupal` starts with the prefix `drupal` the
result is empty all the same. -/
theorem GetPackageListByPrefix_empty :
    (∀ (d : DrushMakeInfo) (pre : Str), d.GetPackageListByPrefix pre = []) ∧
    (embedManifest.Packages.filter (fun p => "drupal".toList.isPrefixOf p.Name)) =
      [corePackage "7.x".toList] ∧
    embedManifest.GetPackageListByPrefix "drupal".toList = [] := by
  refine ⟨fun _ _ => rfl, ?_, ?_⟩ <;> decide

/-- What one pass of the pattern loop can do to a package: nothing, or store a value in
one field. -/
theorem applyLine_one_field (line : Str) (p : Package) :
    Package.applyLine line p = p ∨
    (∃ v, Package.applyLine line p = { p with Version := v }) ∨
    (∃ v, Package.applyLine line p = { p with Type_ := v }) ∨
    (∃ v, Package.applyLine line p = { p with Revision := v }) := by
  by_cases hex : ∃ rt caps, reMatch (patterns rt) line = some caps
  · obtain ⟨rt, caps, h⟩ := hex
    rw [applyLine_of_match p h]
    unfold Package.applyPattern FindStringSubmatch
    rw [h]
    simp only [Option.map_some']
    by_cases hn : (line :: caps).getD 1 [] ≠ p.Name
    · left
      rw [if_pos hn]
    · right
      rw [if_neg hn]
      cases rt
      · exact Or.inl ⟨_, rfl⟩
      · exact Or.inl ⟨_, rfl⟩
      · exact Or.inl ⟨_, rfl⟩
      · exact Or.inr (Or.inl ⟨_, rfl⟩)
      · exact Or.inr (Or.inr ⟨_, rfl⟩)
  · left
    apply applyLine_of_no_match
    intro rt
    cases hm : reMatch (patterns rt) line with
    | none => rfl
    | some caps => exact absurd ⟨rt, caps, hm⟩ hex

/-- C17: at most one of the five expressions of `Package.Parse` matches a line, so one
pass of the pattern loop over a line leaves the package as it is or stores one value
in one field, and the record produced by `Package.Parse` is the same for every order
in which the patterns are tried on the lines. -/
theorem patterns_exclusive :
    (∀ (line : Str) (a b : RowType),
      (reMatch (patterns a) line).isSome = true → (reMatch (patterns b) line).isSome = true →
      a = b) ∧
    (∀ (order : PatternRange) (line : Str) (p : Package),
      Package.applyPatterns order.val line p = p ∨
      (∃ v, Package.applyPatterns order.val line p = { p with Version := v }) ∨
      (∃ v, Package.applyPatterns order.val line p = { p with Type_ := v }) ∨
      (∃ v, Package.applyPatterns order.val line p = { p with Revision := v })) ∧
    (∀ (order1 order2 : PatternRange) (line : Str) (p : Package),
      Package.applyPatterns order1.val line p = Package.applyPatterns order2.val line p) ∧
    (∀ (rng1 rng2 : Nat → PatternRange) (p : Package) (block : Str),
      Package.Parse rng1 p block = Package.Parse rng2 p block) := by
  refine ⟨?_, ?_, ?_, ?_⟩
  · intro line a b ha hb
    obtain ⟨ca, hca⟩ := Option.isSome_iff_exists.mp ha
    obtain ⟨cb, hcb⟩ := Option.isSome_iff_exists.mp hb
    exact reMatch_exclusive hca hcb
  · intro order line p
    rw [applyPatterns_range]
    exact applyLine_one_field line p
  · intro order1 order2 line p
    rw [applyPatterns_range, applyPatterns_range]
  · intro rng1 rng2 p block
    rw [Parse_eq_fold, Parse_eq_fold]

/-- Witness of C17: the line `projects[views] = 3.1` is matched by the expression
BASIC. -/
theorem patterns_exclusive_witness :
    (reMatch (patterns RowType.BASIC) "projects[views] = 3.1".toList).isSome = true ∧
    RowType.BASIC = RowType.BASIC :=
  ⟨by decide,
    patterns_exclusive.1 "projects[views] = 3.1".toList RowType.BASIC RowType.BASIC
      (by decide) (by decide)⟩

theorem keyMapper_no_rbracket (s : Str) : ']' ∉ keyMapper s := by
  rw [keyMapper_eq]
  split
  · intro hm
    have := List.mem_takeWhile_imp hm
    simp at this
  · exact List.not_mem_nil _

/-- C19: `keyMapper(s)` is the text strictly between the leading `projects[` and the
first `]` of `s` when `s` starts with `projects[` and contains a `]`, and is empty
otherwise; the slice expression never fails, because the first `]` is then at index 9
or later; the returned name never contains `]`. -/
theorem keyMapper_extracts :
    (∀ (s : Str), keyMapperChecked s = some (keyMapper s)) ∧
    (∀ (s : Str), "projects[".toList.isPrefixOf s = true → ']' ∈ s →
      9 ≤ strings.Index s "]".toList ∧
      ∃ rest, s = "projects[".toList ++ keyMapper s ++ ']' :: rest) ∧
    (∀ (s : Str), ¬ ("projects[".toList.isPrefixOf s = true ∧ ']' ∈ s) → keyMapper s = []) ∧
    (∀ (s : Str), ']' ∉ keyMapper s) := by
  refine ⟨?_, ?_, ?_, keyMapper_no_rbracket⟩
  · intro s
    rw [keyMapperChecked_eq, keyMapper_eq]
  · intro s hp hin
    obtain ⟨tl, htl⟩ := List.isPrefixOf_iff_prefix.mp hp
    have hin2 : ']' ∈ tl := by
      rw [← htl, List.mem_append] at hin
      rcases hin with hin | hin
      · exact absurd hin (by decide)
      · exact hin
    have hdrop : s.drop 9 = tl := by
      rw [← htl]
      exact List.drop_left' rfl
    have hk : keyMapper s = tl.takeWhile (fun c => c != ']') := by
      rw [keyMapper_eq, if_pos ⟨hp, hin⟩, hdrop]
    constructor
    · have hl2 : "]".toList = [']'] := rfl
      rw [hl2, Index_single, if_pos hin, ← htl]
      simp [List.takeWhile_cons]
      omega
    · have hdw : tl.dropWhile (fun c => c != ']') ≠ [] := by
        rw [Ne, List.dropWhile_eq_nil_iff]
        intro hall
        have := hall _ hin2
        simp at this
      obtain ⟨d, ds, hds⟩ := List.exists_cons_of_ne_nil hdw
      have hd : d = ']' := by
        have h1 := List.head_dropWhile_not (fun c => c != ']') tl hdw
        simp only [hds, List.head_cons] at h1
        simpa using h1
      subst hd
      refine ⟨ds, ?_⟩
      rw [hk, List.append_assoc, ← hds, List.takeWhile_append_dropWhile, htl]
  · intro s hc
    rw [keyMapper_eq, if_neg hc]

/-- Witness of C19 at the line `projects[views] = 3.1`. -/
theorem keyMapper_extracts_witness :
    keyMapper "projects[views] = 3.1".toList = "views".toList ∧
    9 ≤ strings.Index "projects[views] = 3.1".toList "]".toList ∧
    keyMapper "views = 3.1".toList = [] :=
  ⟨by decide,
    (keyMapper_extracts.2.1 "projects[views] = 3.1".toList (by decide) (by decide)).1,
    keyMapper_extracts.2.2.1 "views = 3.1".toList (by decide)⟩

theorem findBlock_longFirst (name : Str) : findBlock name longFirstText = [] := by
  rw [findBlock_scan, longFirstText, scanLines_long_first]
  rfl

theorem longLine_no_key : ¬ ("projects[".toList <:+: longLine.tail) := by
  intro h
  have hp : 'p' ∈ longLine.tail := h.subset (by decide)
  have := List.eq_of_mem_replicate (List.mem_of_mem_tail hp)
  revert this
  decide

/-- C20, as stated, fails: the text of a line of 65536 letters followed by
`projects[a] = 1` mentions `projects[` at line starts only, yet `findBlock` returns the
empty block for `a`, because the scanner gives up at the first line, while the lines
whose key prefix is `a` make up `projects[a] = 1`. -/
theorem findBlock_by_key_counterexample :
    (textLines longFirstText).all
      (fun line => !decide ("projects[".toList <:+: line.tail)) = true ∧
    findBlock "a".toList longFirstText = [] ∧
    keyBlock "a".toList longFirstText = "projects[a] = 1\n".toList ∧
    findBlock "a".toList longFirstText ≠ keyBlock "a".toList longFirstText := by
  have htext : textLines longFirstText = [longLine, "projects[a] = 1".toList] := by
    rw [longFirstText, textLines_long_first]
    congr 1
  have hkey : keyBlock "a".toList longFirstText = "projects[a] = 1\n".toList := by
    rw [keyBlock, htext,
      List.filter_cons_of_neg (by rw [keyMapper_longLine]; decide)]
    decide
  refine ⟨?_, findBlock_longFirst _, hkey, ?_⟩
  · rw [htext, List.all_cons, List.all_cons, List.all_nil]
    have h1 : (!decide ("projects[".toList <:+: longLine.tail)) = true := by
      rw [decide_eq_false longLine_no_key]
      rfl
    rw [h1]
    decide
  · rw [findBlock_longFirst, hkey]
    decide

/-- C20, amended: for a text without a line of 65536 bytes or more that mentions
`projects[` only at the very start of its lines, and a non-empty name without `]`,
`findBlock(name, text)` is the concatenation, in original order and each followed by a
newline, of the lines whose extracted key prefix equals the name; and for a text whose
scanned lines mention `projects[` only at their start the record that
`DrushMakeInfo.Parse` builds for a discovered name carries that name. -/
theorem findBlock_by_key :
    (∀ (name text : Str), fitsScanner text → keysLeadLines text → name ≠ [] → ']' ∉ name →
      findBlock name text = keyBlock name text) ∧
    (∀ (names : NameRange) (rng : Nat → PatternRange) (text n : Str),
      keysLeadLines text → n ∈ componentList names text →
      (Package.Parse rng {} (findBlock n text)).Name = n) := by
  constructor
  · intro name text hfit hlead hne hclean
    rw [findBlock_eq name text hfit, containingBlock, keyBlock]
    congr 2
    apply List.filter_congr
    intro line hline
    rw [← scanLines_of_fits hfit] at hline
    by_cases hk : keyMapper line = name
    · obtain ⟨rest, hl, _⟩ := keyMapper_spec hk hne
      have hin : projectKey name <:+: line := by
        refine ⟨[], rest, ?_⟩
        rw [hl, projectKey]
        simp
      simp [hk, hin]
    · have hnot : ¬ projectKey name <:+: line := by
        intro hin
        obtain ⟨suf, hsuf⟩ := key_leads (hlead line hline) hin
        apply hk
        rw [hsuf]
        exact keyMapper_of_key name suf hclean
      simp [hk, hnot]
  · intro names rng text n hlead hn
    rw [Parse_eq_fold, fold_Name]
    exact keyMapper_findBlock hlead ((componentList_perm names text).mem_iff.mp hn)

/-- Witness of C20 (amended) at the text `projects[a] = 1`, `projects[b] = 2` and the
name `a`. -/
theorem findBlock_by_key_witness :
    fitsScanner twoProjects ∧ keysLeadLines twoProjects ∧
    findBlock "a".toList twoProjects = keyBlock "a".toList twoProjects ∧
    "a".toList ∈ componentList NameRange.insertion twoProjects ∧
    (Package.Parse (fun _ => PatternRange.listed) {} (findBlock "a".toList twoProjects)).Name =
      "a".toList :=
  ⟨by decide, by decide,
    findBlock_by_key.1 "a".toList twoProjects (by decide) (by decide) (by decide) (by decide),
    by decide,
    findBlock_by_key.2 NameRange.insertion (fun _ => PatternRange.listed) twoProjects
      "a".toList (by decide) (by decide)⟩

/-- C16, as stated, fails: two runs on `projects[a] = 1`, `projects[b] = 2`, one
iterating the map of names in insertion order and one in reverse order, return the
component records in different orders. -/
theorem Parse_runs_counterexample :
    (DrushMakeInfo.Parse NameRange.insertion (fun _ _ => PatternRange.listed) {}
        (Except.ok "7.x".toList) (Except.ok twoProjects)).1.Packages.map Package.Name =
      ["drupal".toList, "a".toList, "b".toList] ∧
    (DrushMakeInfo.Parse NameRange.reversed (fun _ _ => PatternRange.listed) {}
        (Except.ok "7.x".toList) (Except.ok twoProjects)).1.Packages.map Package.Name =
      ["drupal".toList, "b".toList, "a".toList] ∧
    (DrushMakeInfo.Parse NameRange.insertion (fun _ _ => PatternRange.listed) {}
        (Except.ok "7.x".toList) (Except.ok twoProjects)).1.Packages ≠
    (DrushMakeInfo.Parse NameRange.reversed (fun _ _ => PatternRange.listed) {}
        (Except.ok "7.x".toList) (Except.ok twoProjects)).1.Packages := by
  decide

/-- C16, amended: two runs of `DrushMakeInfo.Parse` on the same input, each from an
empty manifest, yield the same records: both lists start with the same core record and
the component records of one run are a permutation of those of the other; the lists
are equal whenever the two runs iterate the map of names in the same order. -/
theorem Parse_runs_agree :
    (∀ (names1 names2 : NameRange) (pats1 pats2 : Nat → Nat → PatternRange) (c text : Str),
      ∃ rest1 rest2,
        (DrushMakeInfo.Parse names1 pats1 {} (Except.ok c) (Except.ok text)).1.Packages =
          corePackage c :: rest1 ∧
        (DrushMakeInfo.Parse names2 pats2 {} (Except.ok c) (Except.ok text)).1.Packages =
          corePackage c :: rest2 ∧
        rest1.Perm rest2) ∧
    (∀ (names : NameRange) (pats1 pats2 : Nat → Nat → PatternRange) (c text : Str),
      DrushMakeInfo.Parse names pats1 {} (Except.ok c) (Except.ok text) =
        DrushMakeInfo.Parse names pats2 {} (Except.ok c) (Except.ok text)) := by
  constructor
  · intro names1 names2 pats1 pats2 c text
    refine ⟨(componentList names1 text).map (fun n => Package.fold {} (findBlock n text)),
      (componentList names2 text).map (fun n => Package.fold {} (findBlock n text)),
      ?_, ?_, ?_⟩
    · rw [Parse_ok]
      rfl
    · rw [Parse_ok]
      rfl
    · apply List.Perm.map
      exact (componentList_perm names1 text).trans (componentList_perm names2 text).symm
  · intro names pats1 pats2 c text
    rw [Parse_ok, Parse_ok]

set_option maxRecDepth 100000 in
/-- C13 on the code: the record type has the four fields Name, Version, Type and
Revision and no patch list; no expression matches a `[patch][]` line, and the test block
of `nodequeue` parses to the same record as the block without its two patch lines. -/
theorem Parse_patch_lines_dropped :
    (∀ (rt : RowType),
      reMatch (patterns rt)
        "projects[nodequeue][patch][] = \"http://drupal.org/files/issues/1023606-qid-to-name-6.patch\"".toList
        = none) ∧
    (∀ (rng : Nat → PatternRange),
      Package.Parse rng {} nodequeueBlock =
        { Name := "nodequeue".toList, Version := "2.0-alpha1".toList, Type_ := [],
          Revision := [] }) ∧
    (∀ (rng : Nat → PatternRange),
      Package.Parse rng {} nodequeueBlock = Package.Parse rng {} nodequeueNoPatch) := by
  refine ⟨?_, ?_, ?_⟩
  · intro rt
    cases rt <;> decide
  · intro rng
    rw [Parse_eq_fold]
    decide
  · intro rng
    rw [Parse_eq_fold, Parse_eq_fold]
    decide

/-- The expression of a row type on a line that starts with the key of a name. -/
theorem reMatch_key_line (rt : RowType) (n rest : Str) (hn : n ≠ [])
    (hnw : ∀ c ∈ n, isWord c = true) :
    reMatch (patterns rt) ("projects[".toList ++ n ++ ']' :: rest) =
      if rt.attr.isPrefixOf (']' :: rest) then
        (reMatch assignTail ((']' :: rest).drop rt.attr.length)).map (fun caps => n :: caps)
      else none := by
  have hpre : "projects[".toList.isPrefixOf ("projects[".toList ++ n ++ ']' :: rest) = true := by
    rw [List.isPrefixOf_iff_prefix, List.append_assoc]
    exact List.prefix_append _ _
  have hdrop : ("projects[".toList ++ n ++ ']' :: rest).drop 9 = n ++ ']' :: rest := by
    rw [List.append_assoc]
    exact List.drop_left' rfl
  rw [reMatch_patterns, if_pos hpre, hdrop, takeWhile_append_stop _ _ _ _ hnw (by decide),
    dropWhile_append_stop _ _ _ _ hnw (by decide), if_neg hn]

theorem attr_not_isPrefixOf (rt : RowType) (hrt : rt ≠ RowType.BASIC) (rest : Str)
    (h : rest.head? ≠ some '[') : rt.attr.isPrefixOf (']' :: rest) = false := by
  cases rest with
  | nil => cases rt <;> first | exact absurd rfl hrt | rfl
  | cons c cs =>
    have hc : c ≠ '[' := fun e => h (by rw [e]; rfl)
    have hb : ('[' == c) = false := by
      simp only [beq_eq_false_iff_ne, ne_eq]
      exact fun e => hc e.symm
    cases rt <;> first | exact absurd rfl hrt | simp [RowType.attr, List.isPrefixOf, hb]

theorem dropOptSpace_blank (w s : Str) (hw : w.length ≤ 1) (hws : ∀ c ∈ w, isSpace c = true)
    (hs : ∀ c, s.head? = some c → isSpace c = false) : dropOptSpace (w ++ s) = s := by
  cases w with
  | nil =>
    cases s with
    | nil => rfl
    | cons c cs =>
      have := hs c rfl
      simp [dropOptSpace, this]
  | cons a l =>
    cases l with
    | nil =>
      have := hws a (List.mem_cons_self _ _)
      simp [dropOptSpace, this]
    | cons b l2 => simp at hw

theorem dropOptSpace_two (a b : Char) (s : Str) (ha : isSpace a = true) :
    dropOptSpace (a :: b :: s) = b :: s := by
  simp [dropOptSpace, ha]

/-- The tail `\s?=\s?(\S+)$` on `<w1>=<w2>x`, for at most one blank on either side. -/
theorem reMatch_assignTail_blank (w1 w2 x : Str) (h1 : w1.length ≤ 1)
    (h1s : ∀ c ∈ w1, isSpace c = true) (h2 : w2.length ≤ 1) (h2s : ∀ c ∈ w2, isSpace c = true)
    (hx : ∀ c, x.head? = some c → isSpace c = false) :
    reMatch assignTail (w1 ++ '=' :: (w2 ++ x)) =
      if x ≠ [] ∧ x.all isNonSpace = true then some [x] else none := by
  rw [reMatch_assignTail]
  have e1 : dropOptSpace (w1 ++ '=' :: (w2 ++ x)) = '=' :: (w2 ++ x) :=
    dropOptSpace_blank w1 _ h1 h1s (by intro c hc; cases hc; decide)
  rw [e1]
  have e2 : ['='].isPrefixOf ('=' :: (w2 ++ x)) = true := by simp [List.isPrefixOf]
  have e3 : dropOptSpace (List.drop 1 ('=' :: (w2 ++ x))) = x := by
    rw [List.drop_succ_cons, List.drop_zero]
    exact dropOptSpace_blank w2 x h2 h2s hx
  rw [if_pos e2, e3]

theorem head_clean {v : Str} (hvs : ∀ c ∈ v, isSpace c = false) (more : Str) (hv : v ≠ []) :
    ∀ c, (v ++ more).head? = some c → isSpace c = false := by
  intro c hc
  cases v with
  | nil => exact absurd rfl hv
  | cons a l =>
    simp only [List.cons_append, List.head?_cons, Option.some.injEq] at hc
    subst hc
    exact hvs _ (List.mem_cons_self _ _)

theorem isOptBlank_spec {w : Str} (h : isOptBlank w = true) :
    w.length ≤ 1 ∧ (∀ c ∈ w, isSpace c = true) ∧ '\n' ∉ w := by
  rw [isOptBlank, Bool.and_eq_true, decide_eq_true_eq, List.all_eq_true] at h
  refine ⟨h.1, ?_, ?_⟩
  · intro c hc
    have := h.2 c hc
    rw [Bool.and_eq_true] at this
    exact this.1
  · intro hm
    have := h.2 _ hm
    simp at this

/-- A direct assignment with at most one blank on either side of the `=` matches the
expression BASIC and captures name and value. -/
theorem reMatch_assignLine (n w1 w2 v : Str) (hn : n ≠ []) (hnw : ∀ c ∈ n, isWord c = true)
    (hv : v ≠ []) (hvs : ∀ c ∈ v, isSpace c = false)
    (h1 : isOptBlank w1 = true) (h2 : isOptBlank w2 = true) :
    reMatch (patterns RowType.BASIC) (assignLine n w1 w2 v) = some [n, v] := by
  obtain ⟨h1l, h1s, _⟩ := isOptBlank_spec h1
  obtain ⟨h2l, h2s, _⟩ := isOptBlank_spec h2
  have hall : v.all isNonSpace = true := by
    rw [List.all_eq_true]
    intro c hc
    simp [isNonSpace, hvs c hc]
  rw [assignLine, reMatch_key_line _ _ _ hn hnw]
  have hp : RowType.BASIC.attr.isPrefixOf (']' :: (w1 ++ '=' :: (w2 ++ v))) = true := by
    simp [RowType.attr, List.isPrefixOf]
  have hd : (']' :: (w1 ++ '=' :: (w2 ++ v))).drop RowType.BASIC.attr.length
      = w1 ++ '=' :: (w2 ++ v) := rfl
  rw [if_pos hp, hd, reMatch_assignTail_blank w1 w2 v h1l h1s h2l h2s
    (by simpa using head_clean hvs [] hv), if_pos ⟨hv, hall⟩]
  rfl

theorem scanLines_assignLine (n w1 w2 v : Str) (hnw : ∀ c ∈ n, isWord c = true)
    (hv : v ≠ []) (hvs : ∀ c ∈ v, isSpace c = false)
    (h1 : isOptBlank w1 = true) (h2 : isOptBlank w2 = true)
    (hfit : byteLen (assignLine n w1 w2 v) < MaxScanTokenSize) :
    scanLines (assignLine n w1 w2 v) = [assignLine n w1 w2 v] := by
  obtain ⟨_, _, h1n⟩ := isOptBlank_spec h1
  obtain ⟨_, _, h2n⟩ := isOptBlank_spec h2
  have hnl : '\n' ∉ assignLine n w1 w2 v := by
    intro hm
    simp only [assignLine, List.mem_append, List.mem_cons] at hm
    rcases hm with (hm | hm) | hm | hm | hm | hm | hm
    · revert hm; decide
    · have := hnw _ hm; revert this; decide
    · revert hm; decide
    · exact h1n hm
    · revert hm; decide
    · exact h2n hm
    · exact not_mem_newline_of_clean hvs hm
  have hne : assignLine n w1 w2 v ≠ [] := by
    intro h
    have := congrArg List.length h
    simp [assignLine] at this
  have hlast : (assignLine n w1 w2 v).getLast? ≠ some '\r' := by
    intro h
    have e : assignLine n w1 w2 v = ("projects[".toList ++ n ++ ']' :: (w1 ++ '=' :: w2)) ++ v := by
      simp [assignLine, List.append_assoc]
    rw [e, List.getLast?_append_of_ne_nil _ hv] at h
    have := hvs _ (List.mem_of_getLast?_eq_some h)
    revert this
    decide
  exact scanLines_single _ hne hnl hlast hfit

/-- `Package.Parse` on a direct assignment with at most one blank on either side of
the `=`. -/
theorem fold_assignLine (n w1 w2 v : Str) (hn : n ≠ []) (hnw : ∀ c ∈ n, isWord c = true)
    (hv : v ≠ []) (hvs : ∀ c ∈ v, isSpace c = false)
    (h1 : isOptBlank w1 = true) (h2 : isOptBlank w2 = true)
    (hfit : byteLen (assignLine n w1 w2 v) < MaxScanTokenSize) :
    Package.fold {} (assignLine n w1 w2 v) = { Name := n, Version := v } := by
  have hclean : ']' ∉ n := by
    intro hm
    have := hnw _ hm
    revert this
    decide
  have hk : keyMapper (assignLine n w1 w2 v) = n := keyMapper_of_key n _ hclean
  have hm := reMatch_assignLine n w1 w2 v hn hnw hv hvs h1 h2
  rw [Package.fold, scanLines_assignLine n w1 w2 v hnw hv hvs h1 h2 hfit, hk]
  simp only [List.foldl]
  rw [applyLine_of_match _ hm]
  unfold Package.applyPattern FindStringSubmatch
  rw [hm]
  simp

theorem utf8Size_space {c : Char} (h : isSpace c = true) : c.utf8Size = 1 := by
  simp only [isSpace, Bool.or_eq_true, decide_eq_true_eq] at h
  rcases h with (((h | h) | h) | h) | h <;> (subst h; decide)

theorem byteLen_blank {w : Str} (h : isOptBlank w = true) : byteLen w ≤ 1 := by
  obtain ⟨hl, hs, _⟩ := isOptBlank_spec h
  rcases w with _ | ⟨a, _ | ⟨b, u⟩⟩
  · exact Nat.zero_le 1
  · rw [byteLen_cons, utf8Size_space (hs a (List.mem_cons_self _ _))]
    exact le_refl 1
  · simp at hl

theorem byteLen_assignLine (n w1 w2 v : Str) :
    byteLen (assignLine n w1 w2 v) = byteLen n + byteLen w1 + byteLen w2 + byteLen v + 11 := by
  have h9 : byteLen "projects[".toList = 9 := by decide
  have hb : Char.utf8Size ']' = 1 := by decide
  have he : Char.utf8Size '=' = 1 := by decide
  rw [assignLine, byteLen_append, byteLen_append, byteLen_cons, byteLen_append, byteLen_cons,
    byteLen_append, h9, hb, he]
  omega

theorem head_blank_eq (w : Str) (s : Str) (hws : ∀ c ∈ w, isSpace c = true) :
    (w ++ '=' :: s).head? ≠ some '[' := by
  cases w with
  | nil => simp
  | cons a l =>
    intro h
    simp only [List.cons_append, List.head?_cons, Option.some.injEq] at h
    have := hws a (List.mem_cons_self _ _)
    rw [h] at this
    revert this
    decide

theorem reMatch_assignLine_trailing (rt : RowType) (n w1 w2 v : Str) (c : Char) (extra : Str)
    (hn : n ≠ []) (hnw : ∀ c ∈ n, isWord c = true) (hv : v ≠ [])
    (hvs : ∀ c ∈ v, isSpace c = false) (h1 : isOptBlank w1 = true) (h2 : isOptBlank w2 = true)
    (hc : isSpace c = true) :
    reMatch (patterns rt) (assignLine n w1 w2 v ++ c :: extra) = none := by
  obtain ⟨h1l, h1s, _⟩ := isOptBlank_spec h1
  obtain ⟨h2l, h2s, _⟩ := isOptBlank_spec h2
  have e : assignLine n w1 w2 v ++ c :: extra =
      "projects[".toList ++ n ++ ']' :: (w1 ++ '=' :: (w2 ++ (v ++ c :: extra))) := by
    simp [assignLine, List.append_assoc]
  rw [e, reMatch_key_line _ _ _ hn hnw]
  by_cases hrt : rt = RowType.BASIC
  · subst hrt
    have hp : RowType.BASIC.attr.isPrefixOf (']' :: (w1 ++ '=' :: (w2 ++ (v ++ c :: extra)))) = true := by
      simp [RowType.attr, List.isPrefixOf]
    have hd : (']' :: (w1 ++ '=' :: (w2 ++ (v ++ c :: extra)))).drop RowType.BASIC.attr.length
        = w1 ++ '=' :: (w2 ++ (v ++ c :: extra)) := rfl
    have hall : ¬ ((v ++ c :: extra) ≠ [] ∧ (v ++ c :: extra).all isNonSpace = true) := by
      rintro ⟨_, h⟩
      rw [List.all_eq_true] at h
      have := h c (by simp)
      simp [isNonSpace, hc] at this
    rw [if_pos hp, hd, reMatch_assignTail_blank w1 w2 _ h1l h1s h2l h2s
      (head_clean hvs _ hv), if_neg hall]
    rfl
  · rw [attr_not_isPrefixOf rt hrt _ (head_blank_eq w1 _ h1s)]
    rfl

theorem reMatch_assignLine_wide (rt : RowType) (n w1 w2 v : Str)
    (hn : n ≠ []) (hnw : ∀ c ∈ n, isWord c = true)
    (h1s : ∀ c ∈ w1, isSpace c = true) (h2s : ∀ c ∈ w2, isSpace c = true)
    (hwide : 2 ≤ w1.length ∨ 2 ≤ w2.length) :
    reMatch (patterns rt) (assignLine n w1 w2 v) = none := by
  rw [assignLine, reMatch_key_line _ _ _ hn hnw]
  by_cases hrt : rt = RowType.BASIC
  · subst hrt
    have hp : RowType.BASIC.attr.isPrefixOf (']' :: (w1 ++ '=' :: (w2 ++ v))) = true := by
      simp [RowType.attr, List.isPrefixOf]
    have hd : (']' :: (w1 ++ '=' :: (w2 ++ v))).drop RowType.BASIC.attr.length
        = w1 ++ '=' :: (w2 ++ v) := rfl
    rw [if_pos hp, hd, reMatch_assignTail]
    have hnone : (if ['='].isPrefixOf (dropOptSpace (w1 ++ '=' :: (w2 ++ v))) then
        (if dropOptSpace ((dropOptSpace (w1 ++ '=' :: (w2 ++ v))).drop 1) ≠ [] ∧
            (dropOptSpace ((dropOptSpace (w1 ++ '=' :: (w2 ++ v))).drop 1)).all isNonSpace = true then
          some [dropOptSpace ((dropOptSpace (w1 ++ '=' :: (w2 ++ v))).drop 1)]
        else none)
      else none) = none := by
      have heq : isSpace '=' = false := by decide
      rcases w1 with _ | ⟨a, _ | ⟨b, w⟩⟩
      · -- no blank before `=`
        rcases hwide with h | h
        · simp at h
        · rcases w2 with _ | ⟨a2, _ | ⟨b2, u⟩⟩
          · simp at h
          · simp at h
          · have ha2 := h2s a2 (by simp)
            have hb2 := h2s b2 (by simp)
            simp [dropOptSpace, List.isPrefixOf, ha2, isNonSpace, hb2, heq]
      · -- one blank before `=`
        have ha := h1s a (by simp)
        rcases hwide with h | h
        · simp at h
        · rcases w2 with _ | ⟨a2, _ | ⟨b2, u⟩⟩
          · simp at h
          · simp at h
          · have ha2 := h2s a2 (by simp)
            have hb2 := h2s b2 (by simp)
            simp [dropOptSpace, List.isPrefixOf, ha, ha2, isNonSpace, hb2, heq]
      · -- two or more blanks before `=`
        have ha := h1s a (by simp)
        have hb := h1s b (by simp)
        have hbe : ('=' == b) = false := by
          simp only [beq_eq_false_iff_ne, ne_eq]
          intro e
          rw [← e] at hb
          revert hb
          decide
        simp [dropOptSpace, List.isPrefixOf, ha, hbe]
    rw [hnone]
    rfl
  · rw [attr_not_isPrefixOf rt hrt _ (head_blank_eq w1 _ h1s)]
    rfl

/-- C12, as stated, fails: with two blanks before the `=` the line
`projects[views]  = 3.1` matches none of the five expressions, and `Package.Parse`
leaves Version empty where `projects[views] = 3.1` yields `3.1`. -/
theorem assign_blank_counterexample :
    RowType.all.all (fun rt =>
      (reMatch (patterns rt) "projects[views]  = 3.1".toList).isNone) = true ∧
    Package.Parse (fun _ => PatternRange.listed) {} "projects[views]  = 3.1".toList =
      { Name := "views".toList, Version := [], Type_ := [], Revision := [] } ∧
    Package.Parse (fun _ => PatternRange.listed) {} "projects[views] = 3.1".toList =
      { Name := "views".toList, Version := "3.1".toList, Type_ := [], Revision := [] } := by
  decide

/-- C12, amended: for a non-empty name `n` of word characters, a non-empty value `v`
without whitespace, the line `projects[n] = v` being shorter than 65536 bytes, and at
most one whitespace character (no line break) immediately before and immediately after
the `=`, the line `projects[n]<ws>=<ws>v` is classified as `projects[n] = v` is
(`Package.Parse` yields Name `n`, Version `v`); with two or more
whitespace characters on a side of the `=` the line matches no shape.  Matching is
anchored to the whole line: a line that does not start with `projects[` matches no
shape, and neither does a line in which a whitespace character follows the value. -/
theorem assign_blank_tolerance :
    (∀ (rng : Nat → PatternRange) (n w1 w2 v : Str),
      n ≠ [] → (∀ c ∈ n, isWord c = true) → v ≠ [] → (∀ c ∈ v, isSpace c = false) →
      isOptBlank w1 = true → isOptBlank w2 = true →
      byteLen ("projects[".toList ++ n ++ "] = ".toList ++ v) < MaxScanTokenSize →
      Package.Parse rng {} (assignLine n w1 w2 v) =
          { Name := n, Version := v, Type_ := [], Revision := [] } ∧
      Package.Parse rng {} (assignLine n w1 w2 v) =
          Package.Parse rng {} ("projects[".toList ++ n ++ "] = ".toList ++ v)) ∧
    (∀ (rt : RowType) (n w1 w2 v : Str),
      n ≠ [] → (∀ c ∈ n, isWord c = true) →
      (∀ c ∈ w1, isSpace c = true) → (∀ c ∈ w2, isSpace c = true) →
      (2 ≤ w1.length ∨ 2 ≤ w2.length) →
      reMatch (patterns rt) (assignLine n w1 w2 v) = none) ∧
    (∀ (rt : RowType) (line : Str),
      "projects[".toList.isPrefixOf line = false → reMatch (patterns rt) line = none) ∧
    (∀ (rt : RowType) (n w1 w2 v : Str) (c : Char) (extra : Str),
      n ≠ [] → (∀ c ∈ n, isWord c = true) → v ≠ [] → (∀ c ∈ v, isSpace c = false) →
      isOptBlank w1 = true → isOptBlank w2 = true → isSpace c = true →
      reMatch (patterns rt) (assignLine n w1 w2 v ++ c :: extra) = none) := by
  refine ⟨?_, ?_, ?_, ?_⟩
  · intro rng n w1 w2 v hn hnw hv hvs h1 h2 hfit
    have e : "projects[".toList ++ n ++ "] = ".toList ++ v
        = assignLine n " ".toList " ".toList v := by
      simp [assignLine, List.append_assoc]
    rw [e] at hfit ⊢
    have hb : byteLen " ".toList = 1 := by decide
    have hfit1 : byteLen (assignLine n w1 w2 v) < MaxScanTokenSize := by
      have l1 := byteLen_blank h1
      have l2 := byteLen_blank h2
      rw [byteLen_assignLine, hb] at hfit
      rw [byteLen_assignLine]
      omega
    rw [Parse_eq_fold, Parse_eq_fold, fold_assignLine n w1 w2 v hn hnw hv hvs h1 h2 hfit1,
      fold_assignLine n _ _ v hn hnw hv hvs (by decide) (by decide) hfit]
    exact ⟨rfl, rfl⟩
  · intro rt n w1 w2 v hn hnw h1s h2s hwide
    exact reMatch_assignLine_wide rt n w1 w2 v hn hnw h1s h2s hwide
  · intro rt line hp
    rw [reMatch_patterns, if_neg (by rw [hp]; exact Bool.false_ne_true)]
  · intro rt n w1 w2 v c extra hn hnw hv hvs h1 h2 hc
    exact reMatch_assignLine_trailing rt n w1 w2 v c extra hn hnw hv hvs h1 h2 hc

/-- Witness of C12 (amended): `projects[views]=<tab>3.1`, no blank before the `=` and a
tab after it. -/
theorem assign_blank_tolerance_witness :
    isOptBlank [] = true ∧ isOptBlank ['\t'] = true ∧
    Package.Parse (fun _ => PatternRange.listed) {}
        (assignLine "views".toList [] ['\t'] "3.1".toList) =
      { Name := "views".toList, Version := "3.1".toList, Type_ := [], Revision := [] } :=
  ⟨by decide, by decide,
    (assign_blank_tolerance.1 (fun _ => PatternRange.listed) "views".toList [] ['\t']
      "3.1".toList (by decide) (by decide) (by decide) (by decide) (by decide) (by decide)
      (by decide)).1⟩

theorem applyLine_foreign {name line : Str} (p : Package) (hp : p.Name = name)
    (h : isForeignLine name line = true) : Package.applyLine line p = p := by
  rw [isForeignLine, List.any_eq_true] at h
  obtain ⟨rt, _, hrt⟩ := h
  cases hm : reMatch (patterns rt) line with
  | none => simp [FindStringSubmatch, hm] at hrt
  | some caps =>
    rw [applyLine_of_match p hm]
    unfold Package.applyPattern
    simp only [FindStringSubmatch, hm, Option.map_some'] at hrt ⊢
    rw [if_pos (by rw [hp]; exact of_decide_eq_true hrt)]

theorem foldl_filter_foreign (name : Str) (lines : List Str) (p : Package)
    (hp : p.Name = name) :
    (lines.filter (fun l => !isForeignLine name l)).foldl
        (fun q line => Package.applyLine line q) p =
      lines.foldl (fun q line => Package.applyLine line q) p := by
  induction lines generalizing p with
  | nil => rfl
  | cons l rest ih =>
    by_cases hf : isForeignLine name l = true
    · rw [List.filter_cons_of_neg (by simp [hf]), List.foldl, applyLine_foreign p hp hf]
      exact ih p hp
    · rw [List.filter_cons_of_pos (by simpa using hf), List.foldl, List.foldl]
      exact ih _ (by rw [applyLine_Name, hp])

set_option maxRecDepth 100000 in
/-- C18, as stated, fails: in `projects[a`, `projects[x] = 1`, `b] = 2` the name of the
block runs up to the `]` of the second line; that line is discarded by the name check,
and removing it (the first line is kept) changes the name of the record. -/
theorem Parse_discard_counterexample :
    fitsScanner openNameBlock ∧
    rawLines openNameBlockKept =
      (rawLines openNameBlock).filter
        (fun r => !isForeignLine (keyMapper openNameBlock) (dropCR r)) ∧
    (rawLines openNameBlockKept).head? = (rawLines openNameBlock).head? ∧
    (Package.Parse (fun _ => PatternRange.listed) {} openNameBlock).Name =
      "a\nprojects[x".toList ∧
    (Package.Parse (fun _ => PatternRange.listed) {} openNameBlockKept).Name = "a\nb".toList ∧
    Package.Parse (fun _ => PatternRange.listed) {} openNameBlock ≠
      Package.Parse (fun _ => PatternRange.listed) {} openNameBlockKept := by
  decide

/-- C18, amended: in a block without a line of 65536 bytes or more, a line that
matches a recognized shape but captures a name other than the block's name is
discarded: `Package.Parse` of the block equals `Package.Parse` of a block with the same
name (`keyMapper`) whose lines are those of the block without every such line; the name
is the same whenever both blocks start with the same text holding a `]`, as when the
first line is kept and contains a `]`. -/
theorem Parse_discards_foreign :
    (∀ (rng1 rng2 : Nat → PatternRange) (block kept : Str),
      fitsScanner block →
      rawLines kept =
        (rawLines block).filter (fun r => !isForeignLine (keyMapper block) (dropCR r)) →
      keyMapper kept = keyMapper block →
      Package.Parse rng1 {} kept = Package.Parse rng2 {} block) ∧
    (∀ (first rest1 rest2 : Str), ']' ∈ first →
      keyMapper (first ++ rest1) = keyMapper (first ++ rest2)) := by
  constructor
  · intro rng1 rng2 block kept hfit hlines hname
    have hfitk : fitsScanner kept := by
      intro l hl
      rw [hlines] at hl
      exact hfit l (List.mem_of_mem_filter hl)
    have hscan : scanLines kept =
        (scanLines block).filter (fun l => !isForeignLine (keyMapper block) l) := by
      rw [scanLines_of_fits hfitk, scanLines_of_fits hfit, textLines, textLines, hlines,
        List.filter_map]
      rfl
    rw [Parse_eq_fold, Parse_eq_fold, Package.fold, Package.fold, hscan, hname]
    exact foldl_filter_foreign (keyMapper block) _ _ rfl
  · intro first rest1 rest2 h
    rw [keyMapper_append first rest1 h, keyMapper_append first rest2 h]

set_option maxRecDepth 100000 in
/-- Witness of C18 (amended): the block `projects[x] = 1`, `projects[y] = 2`,
`projects[x][version] = 3` and the same block without the line of `y`. -/
theorem Parse_discards_foreign_witness :
    fitsScanner "projects[x] = 1\nprojects[y] = 2\nprojects[x][version] = 3".toList ∧
    rawLines "projects[x] = 1\nprojects[x][version] = 3".toList =
      (rawLines "projects[x] = 1\nprojects[y] = 2\nprojects[x][version] = 3".toList).filter
        (fun r => !isForeignLine
          (keyMapper "projects[x] = 1\nprojects[y] = 2\nprojects[x][version] = 3".toList)
          (dropCR r)) ∧
    Package.Parse (fun _ => PatternRange.listed) {}
        "projects[x] = 1\nprojects[x][version] = 3".toList =
      Package.Parse (fun _ => PatternRange.listed) {}
        "projects[x] = 1\nprojects[y] = 2\nprojects[x][version] = 3".toList :=
  ⟨by decide, by decide,
    Parse_discards_foreign.1 (fun _ => PatternRange.listed) (fun _ => PatternRange.listed)
      "projects[x] = 1\nprojects[y] = 2\nprojects[x][version] = 3".toList
      "projects[x] = 1\nprojects[x][version] = 3".toList (by decide) (by decide) (by decide)⟩

theorem rawLines_no_newline (s : Str) : ∀ l ∈ rawLines s, '\n' ∉ l := by
  induction s with
  | nil => intro l hl; cases hl
  | cons c cs ih =>
    intro l hl
    rw [rawLines] at hl
    by_cases hc : c = '\n'
    · rw [if_pos hc] at hl
      rcases List.mem_cons.mp hl with rfl | hl
      · exact List.not_mem_nil _
      · exact ih l hl
    · rw [if_neg hc] at hl
      cases hr : rawLines cs with
      | nil =>
        rw [hr] at hl
        simp only [List.mem_singleton] at hl
        subst hl
        intro hm
        simp only [List.mem_singleton] at hm
        exact hc hm.symm
      | cons l1 ls =>
        rw [hr] at hl ih
        rcases List.mem_cons.mp hl with rfl | hl
        · intro hm
          rcases List.mem_cons.mp hm with hm | hm
          · exact hc hm.symm
          · exact ih l1 (List.mem_cons_self _ _) hm
        · exact ih l (List.mem_cons_of_mem _ hl)

theorem mem_dropCR {c : Char} {l : Str} (h : c ∈ dropCR l) : c ∈ l := by
  rw [dropCR] at h
  split at h
  · exact List.mem_of_mem_dropLast h
  · exact h

theorem mem_rawLines_of_scanLines {s l : Str} (hl : l ∈ scanLines s) :
    ∃ r ∈ rawLines s, byteLen r < MaxScanTokenSize ∧ l = dropCR r := by
  rw [scanLines, List.mem_map] at hl
  obtain ⟨r, hr, rfl⟩ := hl
  have hP := List.mem_takeWhile_imp hr
  exact ⟨r, (List.takeWhile_sublist _).subset hr, of_decide_eq_true hP, rfl⟩

theorem scanLines_no_newline (s : Str) : ∀ l ∈ scanLines s, '\n' ∉ l := by
  intro l hl
  obtain ⟨r, hr, _, rfl⟩ := mem_rawLines_of_scanLines hl
  exact fun hm => rawLines_no_newline s r hr (mem_dropCR hm)

theorem scanLines_fit (s : Str) : ∀ l ∈ scanLines s, byteLen l < MaxScanTokenSize := by
  intro l hl
  obtain ⟨r, _, hfit, rfl⟩ := mem_rawLines_of_scanLines hl
  exact lt_of_le_of_lt (byteLen_dropCR_le r) hfit

theorem rawLines_flatten (F : List Str) (h : ∀ l ∈ F, '\n' ∉ l) :
    rawLines ((F.map (fun line => line ++ "\n".toList)).flatten) = F := by
  induction F with
  | nil => rfl
  | cons l rest ih =>
    have e : ((l :: rest).map (fun line => line ++ "\n".toList)).flatten
        = l ++ '\n' :: (rest.map (fun line => line ++ "\n".toList)).flatten := by
      simp [List.append_assoc]
    rw [e, rawLines_append_newline _ _ (h l (List.mem_cons_self _ _)),
      ih (fun m hm => h m (List.mem_cons_of_mem _ hm))]

/-- The lines `Package.Parse` scans from the block of a name: every line of the block,
since the lines of a block were read by a scanner before. -/
theorem scanLines_findBlock (n text : Str) :
    scanLines (findBlock n text) =
      ((scanLines text).filter (fun line => decide (projectKey n <:+: line))).map dropCR := by
  rw [findBlock_scan]
  conv_lhs => rw [scanLines]
  rw [rawLines_flatten _ (fun l hl => scanLines_no_newline text l (List.mem_of_mem_filter hl)),
    List.takeWhile_eq_self_iff.mpr]
  intro l hl
  exact decide_eq_true (scanLines_fit text l (List.mem_of_mem_filter hl))

theorem foldl_applyLine_insert (p : Package) (A B : List Str) (L : Str)
    (hL : ∀ rt, reMatch (patterns rt) (dropCR L) = none) :
    ((A ++ L :: B).map dropCR).foldl (fun q line => Package.applyLine line q) p =
      ((A ++ B).map dropCR).foldl (fun q line => Package.applyLine line q) p := by
  rw [List.map_append, List.map_append, List.foldl_append, List.foldl_append, List.map_cons,
    List.foldl_cons, applyLine_of_no_match _ hL]

theorem filter_insertedAt (P : Str → Bool) (k : Nat) (L : Str) (ls : List Str) :
    (insertedAt k L ls).filter P =
      (ls.take k).filter P ++ (if P L = true then [L] else []) ++ (ls.drop k).filter P := by
  rw [insertedAt, List.filter_append, List.filter_cons]
  by_cases h : P L = true
  · simp [h]
  · simp [h]

theorem filter_take_drop (P : Str → Bool) (k : Nat) (ls : List Str) :
    ls.filter P = (ls.take k).filter P ++ (ls.drop k).filter P := by
  rw [← List.filter_append, List.take_append_drop]

theorem mem_insertedAt {k : Nat} {L l : Str} {ls : List Str} (h : l ∈ ls) :
    l ∈ insertedAt k L ls := by
  rw [← List.take_append_drop k ls] at h
  rw [insertedAt]
  rcases List.mem_append.mp h with h | h
  · exact List.mem_append_left _ h
  · exact List.mem_append_right _ (List.mem_cons_of_mem _ h)

/-- Inserting a line that matches no shape among the scanned lines of a text that
mentions keys only at the start of lines leaves the record of every discovered
component as it was. -/
theorem fold_findBlock_insert {text text1 : Str} {k : Nat} {L n : Str}
    (hins : scanLines text1 = insertedAt k L (scanLines text))
    (hL : ∀ rt, reMatch (patterns rt) (dropCR L) = none)
    (hlead : keysLeadLines text1) (hn : n ∈ componentKeys text) :
    n ∈ componentKeys text1 ∧
    Package.fold {} (findBlock n text1) = Package.fold {} (findBlock n text) := by
  have hlead0 : keysLeadLines text := by
    intro l hl
    exact hlead l (by rw [hins]; exact mem_insertedAt hl)
  have hn1 : n ∈ componentKeys text1 := by
    rw [mem_componentKeys] at hn ⊢
    obtain ⟨h1, h2, l, hl, hk⟩ := hn
    exact ⟨h1, h2, l, by rw [hins]; exact mem_insertedAt hl, hk⟩
  refine ⟨hn1, ?_⟩
  rw [Package.fold, Package.fold, keyMapper_findBlock hlead hn1, keyMapper_findBlock hlead0 hn,
    scanLines_findBlock, scanLines_findBlock, hins, filter_insertedAt,
    filter_take_drop (fun line => decide (projectKey n <:+: line)) k (scanLines text)]
  by_cases hP : decide (projectKey n <:+: L) = true
  · rw [if_pos hP, List.append_assoc, List.singleton_append]
    exact foldl_applyLine_insert _ _ _ L hL
  · rw [if_neg hP, List.append_nil]

theorem takeWhile_append_of_exists {α : Type} (q : α → Bool) (a b : List α)
    (h : ∃ x ∈ a, q x = false) : (a ++ b).takeWhile q = a.takeWhile q := by
  induction a with
  | nil =>
    obtain ⟨x, hx, _⟩ := h
    cases hx
  | cons c cs ih =>
    rw [List.cons_append, List.takeWhile_cons, List.takeWhile_cons]
    by_cases hc : q c = true
    · simp only [hc, if_true]
      congr 1
      apply ih
      obtain ⟨x, hx, hqx⟩ := h
      rcases List.mem_cons.mp hx with rfl | hx
      · rw [hc] at hqx; cases hqx
      · exact ⟨x, hx, hqx⟩
    · simp [hc]

theorem takeWhile_append_of_all {α : Type} (q : α → Bool) (a b : List α)
    (h : ∀ x ∈ a, q x = true) : (a ++ b).takeWhile q = a ++ b.takeWhile q := by
  induction a with
  | nil => rfl
  | cons c cs ih =>
    rw [List.cons_append, List.takeWhile_cons, if_pos (h c (List.mem_cons_self _ _)),
      ih (fun x hx => h x (List.mem_cons_of_mem _ hx))]
    rfl

/-- What the scanner reads after a line within its limit is put into the text: the
same lines when an over-long line comes before the new line, else the lines read before
with the new line among them. -/
theorem scanLines_insert {text text1 : Str} {k : Nat} {R : Str}
    (hins : rawLines text1 = insertedAt k R (rawLines text))
    (hfit : byteLen R < MaxScanTokenSize) :
    scanLines text1 = scanLines text ∨
    ∃ k1, scanLines text1 = insertedAt k1 (dropCR R) (scanLines text) := by
  by_cases hall : ∀ x ∈ (rawLines text).take k, decide (byteLen x < MaxScanTokenSize) = true
  · right
    refine ⟨(((rawLines text).take k).map dropCR).length, ?_⟩
    have h0 : scanLines text = ((rawLines text).take k).map dropCR ++
        (((rawLines text).drop k).takeWhile
          (fun l => decide (byteLen l < MaxScanTokenSize))).map dropCR := by
      conv_lhs => rw [scanLines, ← List.take_append_drop k (rawLines text)]
      rw [takeWhile_append_of_all _ _ _ hall, List.map_append]
    have h1 : scanLines text1 = ((rawLines text).take k).map dropCR ++
        dropCR R :: (((rawLines text).drop k).takeWhile
          (fun l => decide (byteLen l < MaxScanTokenSize))).map dropCR := by
      rw [scanLines, hins, insertedAt, takeWhile_append_of_all _ _ _ hall, List.takeWhile_cons,
        if_pos (decide_eq_true hfit), List.map_append, List.map_cons]
    rw [h1, h0, insertedAt, List.take_left, List.drop_left]
  · left
    have hex : ∃ x ∈ (rawLines text).take k,
        decide (byteLen x < MaxScanTokenSize) = false := by
      by_contra hne
      apply hall
      intro x hx
      by_contra hx2
      exact hne ⟨x, hx, by simpa using hx2⟩
    have h0 : scanLines text = (((rawLines text).take k).takeWhile
        (fun l => decide (byteLen l < MaxScanTokenSize))).map dropCR := by
      conv_lhs => rw [scanLines, ← List.take_append_drop k (rawLines text)]
      rw [takeWhile_append_of_exists _ _ _ hex]
    rw [h0, scanLines, hins, insertedAt, takeWhile_append_of_exists _ _ _ hex]

theorem componentKeys_congr {text text1 : Str} (h : scanLines text1 = scanLines text) :
    componentKeys text1 = componentKeys text := by
  rw [componentKeys, componentKeys, h]

theorem findBlock_congr {text text1 : Str} (h : scanLines text1 = scanLines text) (n : Str) :
    findBlock n text1 = findBlock n text := by
  rw [findBlock_scan, findBlock_scan, h]

/-- C11, as stated, fails: the line `foo = projects[x]` matches none of the five
expressions, yet put before `projects[x] = 1` it becomes the first line of the block of
`x`, whose record then has an empty Name and an empty Version. -/
theorem Parse_insert_counterexample :
    rawLines oneProjectMentioned =
      insertedAt 0 "foo = projects[x]".toList (rawLines oneProject) ∧
    RowType.all.all (fun rt =>
      (reMatch (patterns rt) "foo = projects[x]".toList).isNone) = true ∧
    (DrushMakeInfo.Parse NameRange.insertion (fun _ _ => PatternRange.listed) {}
        (Except.ok "7.x".toList) (Except.ok oneProject)).1.Packages =
      [corePackage "7.x".toList, { Name := "x".toList, Version := "1".toList }] ∧
    (DrushMakeInfo.Parse NameRange.insertion (fun _ _ => PatternRange.listed) {}
        (Except.ok "7.x".toList) (Except.ok oneProjectMentioned)).1.Packages =
      [corePackage "7.x".toList, { Name := [], Version := [] }] := by
  decide

/-- C11, amended: let a line shorter than 65536 bytes that matches none of the
recognized shapes when `Package.Parse` scans it (that is, without the carriage returns
the two scanners drop at its end) be inserted at any line position of a text.  The
parse of the new text does not fail, and, when the lines read from the new text mention
`projects[` only at their very start, every component record produced for the text
without that line is produced for the text with it, whatever the core values of the
two files. -/
theorem Parse_insert_tolerant :
    ∀ (names names1 : NameRange) (pats pats1 : Nat → Nat → PatternRange)
        (c c1 text text1 : Str) (k : Nat) (R : Str),
      rawLines text1 = insertedAt k R (rawLines text) →
      byteLen R < MaxScanTokenSize →
      (∀ rt, reMatch (patterns rt) (dropCR (dropCR R)) = none) →
      (DrushMakeInfo.Parse names1 pats1 {} (Except.ok c1) (Except.ok text1)).2 = none ∧
      (keysLeadLines text1 →
        ∀ p ∈ (DrushMakeInfo.Parse names pats {} (Except.ok c) (Except.ok text)).1.Packages.tail,
          p ∈ (DrushMakeInfo.Parse names1 pats1 {} (Except.ok c1)
            (Except.ok text1)).1.Packages.tail) := by
  intro names names1 pats pats1 c c1 text text1 k R hins hfit hR
  constructor
  · rw [Parse_ok]
  · intro hlead p hp
    rw [Parse_ok] at hp ⊢
    simp only [List.nil_append, List.tail_cons, List.mem_map] at hp ⊢
    obtain ⟨n, hn, hp⟩ := hp
    have hn0 : n ∈ componentKeys text := (componentList_perm names text).mem_iff.mp hn
    rcases scanLines_insert hins hfit with hsame | ⟨k1, hk1⟩
    · refine ⟨n, (componentList_perm names1 text1).mem_iff.mpr ?_, ?_⟩
      · rw [componentKeys_congr hsame]
        exact hn0
      · rw [findBlock_congr hsame, hp]
    · obtain ⟨hn1, hfold⟩ := fold_findBlock_insert hk1 hR hlead hn0
      exact ⟨n, (componentList_perm names1 text1).mem_iff.mpr hn1, by rw [hfold, hp]⟩

set_option maxRecDepth 100000 in
/-- Witness of C11 (amended): the malformed line `projects[]=` put before
`projects[x] = 1`, in a file whose core value changes from `7.x` to `8.x`. -/
theorem Parse_insert_tolerant_witness :
    rawLines oneProjectMalformed = insertedAt 0 "projects[]=".toList (rawLines oneProject) ∧
    keysLeadLines oneProjectMalformed ∧
    (DrushMakeInfo.Parse NameRange.insertion (fun _ _ => PatternRange.listed) {}
        (Except.ok "8.x".toList) (Except.ok oneProjectMalformed)).2 = none ∧
    ({ Name := "x".toList, Version := "1".toList } : Package) ∈
      (DrushMakeInfo.Parse NameRange.insertion (fun _ _ => PatternRange.listed) {}
        (Except.ok "8.x".toList) (Except.ok oneProjectMalformed)).1.Packages.tail :=
  ⟨by decide, by decide,
    (Parse_insert_tolerant NameRange.insertion NameRange.insertion
      (fun _ _ => PatternRange.listed) (fun _ _ => PatternRange.listed) "7.x".toList
      "8.x".toList oneProject oneProjectMalformed 0 "projects[]=".toList (by decide)
      (by decide) (by intro rt; cases rt <;> decide)).1,
    (Parse_insert_tolerant NameRange.insertion NameRange.insertion
      (fun _ _ => PatternRange.listed) (fun _ _ => PatternRange.listed) "7.x".toList
      "8.x".toList oneProject oneProjectMalformed 0 "projects[]=".toList (by decide)
      (by decide) (by intro rt; cases rt <;> decide)).2 (by decide) _ (by decide)⟩

end DrushMake
